import Mathlib

/-!
Verification of the VX-REALITYCORE program-space search engine
(`src/vx_agi/synthesis_engine.py`, `src/vx_agi/genetic_operators.py`,
`src/vx_agi/meta_learner.py`) against its natural-language specification.

The Python code is shallowly embedded: dynamic Python values occurring in
the synthesis domain are the inductive type `Value`; the primitive table,
the AST-to-closure compiler, the enumerative synthesizer, the genetic
operators and the meta-learner are translated definition by definition.
Python floats are modelled as exact rationals (`ℚ`); no property proved
here depends on floating-point rounding.  Machine-level exceptions are
modelled with `Except`; evaluation carries a fuel parameter that is
decremented on every nested call, so that every concrete run below is
performed with an ample, explicitly chosen fuel.
-/

namespace VX

/-- Python runtime values reachable in the synthesis domain: ints, bools,
floats, lists, `None`, and the function objects the primitive table can
produce (the registered primitives themselves, and the closures returned
by `const`, `compose` and `fix`). -/
inductive Value where
  | int (n : ℤ)
  | bool (b : Bool)
  | float (q : ℚ)
  | list (xs : List Value)
  | null
  | prim (name : String)
  | constFn (v : Value)
  | composeFn (f g : Value)
  | fixFn (f : Value)

/-- Python truthiness: `0`, `0.0`, `False`, `[]` and `None` are falsy;
every other value in our universe (including every function object) is
truthy. -/
def truthy : Value → Bool
  | .int n => n != 0
  | .bool b => b
  | .float q => q != 0
  | .list xs => !xs.isEmpty
  | .null => false
  | _ => true

/-- A Python `bool` is a subtype of `int`: both coerce to an integer for
arithmetic. -/
def asInt : Value → Option ℤ
  | .int n => some n
  | .bool b => some (if b then 1 else 0)
  | _ => Option.none

/-- Ints, bools and floats viewed as numbers (floats modelled exactly). -/
def asNum : Value → Option ℚ
  | .float q => some q
  | v => (asInt v).map fun n => (n : ℚ)

/-- Faults during compilation/evaluation.  `typeErr` stands for the
`TypeError`s Python raises (wrong argument count, unsupported operand
types, calling a non-callable); `keyErr` for a registry lookup miss;
`fuelErr` marks exhaustion of the modelling fuel and never occurs in the
concrete runs below. -/
inductive PyErr where
  | typeErr
  | keyErr
  | fuelErr
  deriving DecidableEq, Repr

mutual

/-- Python `==` on our value universe: numbers compare by value across
int/bool/float, lists compare elementwise, `None` equals itself.  The
registry holds a single function object per primitive name, so two
references to the same primitive compare equal; all other function
objects are fresh closures, which Python compares by identity, so they
compare unequal here. -/
def pyEqB : Value → Value → Bool
  | .list xs, .list ys => pyEqList xs ys
  | .null, .null => true
  | .prim a, .prim b => a == b
  | x, y =>
    match asNum x, asNum y with
    | some a, some b => a == b
    | _, _ => false

def pyEqList : List Value → List Value → Bool
  | [], [] => true
  | x :: xs, y :: ys => pyEqB x y && pyEqList xs ys
  | _, _ => false

end

mutual

/-- Python `x < y`: numeric comparison across int/bool/float, and
lexicographic comparison of lists; anything else is a `TypeError`. -/
def pyLt : Value → Value → Except PyErr Bool
  | .list xs, .list ys => pyLtList xs ys
  | x, y =>
    match asNum x, asNum y with
    | some a, some b => .ok (decide (a < b))
    | _, _ => .error .typeErr

/-- Lexicographic list comparison: skip equal prefixes (Python uses `==`
here), compare the first differing elements, fall back to length. -/
def pyLtList : List Value → List Value → Except PyErr Bool
  | [], [] => .ok false
  | [], _ :: _ => .ok true
  | _ :: _, [] => .ok false
  | x :: xs, y :: ys => if pyEqB x y then pyLtList xs ys else pyLt x y

end

/-- Python `x + y` over our universe: int/bool addition stays integral,
any float makes the result a float, lists concatenate; other operand
combinations raise `TypeError`. -/
def pyAdd (x y : Value) : Except PyErr Value :=
  match asInt x, asInt y with
  | some a, some b => .ok (.int (a + b))
  | _, _ =>
    match asNum x, asNum y with
    | some a, some b => .ok (.float (a + b))
    | _, _ =>
      match x, y with
      | .list xs, .list ys => .ok (.list (xs ++ ys))
      | _, _ => .error .typeErr

/-- Python `x - y`: numbers only. -/
def pySub (x y : Value) : Except PyErr Value :=
  match asInt x, asInt y with
  | some a, some b => .ok (.int (a - b))
  | _, _ =>
    match asNum x, asNum y with
    | some a, some b => .ok (.float (a - b))
    | _, _ => .error .typeErr

/-- Python list replication `xs * n`: `n ≤ 0` yields `[]`. -/
def listRepl (xs : List Value) : ℤ → List Value
  | .ofNat n => (List.replicate n xs).flatten
  | .negSucc _ => []

/-- Python `x * y`: numeric multiplication, or list replication when one
operand is a list and the other an int/bool. -/
def pyMul (x y : Value) : Except PyErr Value :=
  match asInt x, asInt y with
  | some a, some b => .ok (.int (a * b))
  | _, _ =>
    match asNum x, asNum y with
    | some a, some b => .ok (.float (a * b))
    | _, _ =>
      match x, y with
      | .list xs, y' =>
        match asInt y' with
        | some n => .ok (.list (listRepl xs n))
        | _ => .error .typeErr
      | x', .list ys =>
        match asInt x' with
        | some n => .ok (.list (listRepl ys n))
        | _ => .error .typeErr
      | _, _ => .error .typeErr

/-- The `div` primitive: `x / y if y != 0 else 0`.  The zero test is
Python `!=` against the int `0`; true division of numbers produces a
float (modelled exactly as a rational). -/
def pyDiv (x y : Value) : Except PyErr Value :=
  if pyEqB y (.int 0) then .ok (.int 0)
  else
    match asNum x, asNum y with
    | some a, some b => .ok (.float (a / b))
    | _, _ => .error .typeErr

/-- `list(map(f, xs))` inside the `map` primitive: apply `f` to each
element, left to right; `call` is the interpreter's function-application
operation. -/
def mapRun (call : Value → List Value → Except PyErr Value) (f : Value) :
    List Value → Except PyErr (List Value)
  | [] => .ok []
  | x :: xs => do
      let v ← call f [x]
      let vs ← mapRun call f xs
      .ok (v :: vs)

/-- `list(filter(f, xs))`: keep elements where `f` returns a truthy
value; Python's `filter(None, xs)` keeps the truthy elements without
calling anything. -/
def filterRun (call : Value → List Value → Except PyErr Value) (f : Value) :
    List Value → Except PyErr (List Value)
  | [] => .ok []
  | x :: xs => do
      let keep ← match f with
        | .null => (.ok (truthy x) : Except PyErr Bool)
        | f' => do let r ← call f' [x]; .ok (truthy r)
      let vs ← filterRun call f xs
      .ok (if keep then x :: vs else vs)

/-- The loop inside `_safe_reduce` (errors propagate to the caller,
which converts them to the initial value). -/
def reduceFold (call : Value → List Value → Except PyErr Value) (f : Value) :
    List Value → Value → Except PyErr Value
  | [], acc => .ok acc
  | x :: xs, acc => do
      let acc' ← call f [acc, x]
      reduceFold call f xs acc'

/-- The loop of `_fixed_point`'s `fix_fn`: iterate `f` up to the cap,
returning early when an iterate is `==`-equal to its successor. -/
def fixRun (call : Value → List Value → Except PyErr Value) (f : Value) :
    Nat → Value → Except PyErr Value
  | 0, r => .ok r
  | Nat.succ k, r => do
      let nr ← call f [r]
      if pyEqB nr r then .ok r else fixRun call f k nr

/-- The primitive table of `ProgramSynthesizer._initialize_primitives`,
applied to an argument list; `call` applies the function-valued
arguments of the higher-order primitives.  Unknown names or mismatched
arities are `TypeError`s (matching what calling the Python lambdas
would raise). -/
def applyPrim (call : Value → List Value → Except PyErr Value)
    (name : String) (args : List Value) : Except PyErr Value :=
  match name, args with
  | "add", [x, y] => pyAdd x y
    | "sub", [x, y] => pySub x y
    | "mul", [x, y] => pyMul x y
    | "div", [x, y] => pyDiv x y
    | "and", [x, y] => .ok (if truthy x then y else x)
    | "or", [x, y] => .ok (if truthy x then x else y)
    | "not", [x] => .ok (.bool (!truthy x))
    | "eq", [x, y] => .ok (.bool (pyEqB x y))
    | "gt", [x, y] => do let b ← pyLt y x; .ok (.bool b)
    | "lt", [x, y] => do let b ← pyLt x y; .ok (.bool b)
    | "if", [c, t, e] => .ok (if truthy c then t else e)
    | "identity", [x] => .ok x
    | "const", [x] => .ok (.constFn x)
    | "compose", [f, g] => .ok (.composeFn f g)
    | "map", [f, xs] =>
      match xs with
      | .list l => do let l' ← mapRun call f l; .ok (.list l')
      | v => .ok v
  | "filter", [f, xs] =>
      match xs with
      | .list l => do let l' ← filterRun call f l; .ok (.list l')
      | v => .ok v
  | "reduce", [f, xs, z] =>
      match xs with
      | .list l =>
        match reduceFold call f l z with
        | .ok v => .ok v
        | .error .fuelErr => .error .fuelErr
        | .error _ => .ok z
      | _ => .ok z
  | "head", [xs] =>
      match xs with
      | .list (h :: _) => .ok h
      | _ => .ok .null
  | "tail", [xs] =>
      match xs with
      | .list (_ :: t) => .ok (.list t)
      | _ => .ok (.list [])
  | "cons", [x, xs] =>
      match xs with
      | .list l => .ok (.list (x :: l))
      | _ => .ok (.list [x])
  | "fix", [f] => .ok (.fixFn f)
  | _, _ => .error .typeErr

/-- Calling a value as a Python function (`ProgramSynthesizer`'s
primitives and the closures they return).  Wrong argument counts and
non-callable values raise `TypeError`, as the underlying lambdas do.
Fuel is decremented on every nested call and is the only modelling
artefact; every concrete run below uses an ample fuel. -/
def callV : Nat → Value → List Value → Except PyErr Value
  | 0, _, _ => .error .fuelErr
  | Nat.succ fuel, .prim name, args => applyPrim (callV fuel) name args
  | Nat.succ _, .constFn v, [_] => .ok v
  | Nat.succ fuel, .composeFn f g, [x] => do
      let y ← callV fuel g [x]
      callV fuel f [y]
  | Nat.succ fuel, .fixFn f, [x] => fixRun (callV fuel) f 100 x
  | Nat.succ _, _, _ => .error .typeErr

/-- Program ASTs: the tagged tuples `('primitive', name)`, `('var', i)`,
`('const', v)` and `('apply', name, children)` shared by the synthesizer
and the genetic engine. -/
inductive AST where
  | prim (name : String)
  | var (idx : Nat)
  | const (v : Value)
  | apply (name : String) (children : List AST)

/-- The primitive registry's key set, in the dict's insertion order
(`_initialize_primitives`). -/
def primNames : List String :=
  ["add", "sub", "mul", "div",
   "and", "or", "not", "eq", "gt", "lt",
   "if", "identity", "const", "compose",
   "map", "filter", "reduce", "head", "tail", "cons",
   "fix"]

/-- `ProgramSynthesizer._get_arity`. -/
def getArity (name : String) : Nat :=
  if ["add", "sub", "mul", "div", "and", "or", "eq", "gt", "lt", "cons", "compose"].contains name then 2
  else if ["not", "identity", "head", "tail", "const"].contains name then 1
  else if ["if", "reduce"].contains name then 3
  else if ["map", "filter"].contains name then 2
  else 1

mutual

/-- `_compile_ast` succeeds exactly when every operator name mentioned in
the tree is in the primitive registry (otherwise the dict lookup raises
`KeyError`, which `synthesize` catches and treats as a rejected
candidate). -/
def compileOk : AST → Bool
  | .prim name => primNames.contains name
  | .var _ => true
  | .const _ => true
  | .apply name cs => primNames.contains name && compileOkList cs

def compileOkList : List AST → Bool
  | [] => true
  | c :: cs => compileOk c && compileOkList cs

end

mutual

/-- Behaviour of the closure `_compile_ast` produces, applied to the
input tuple `args`: a bare primitive leaf is the registered function
itself (so calling it applies the primitive to the whole input tuple), a
`const` ignores the inputs, a `var` indexes into them (`None` when out
of range), and an `apply` evaluates all children left to right on the
same inputs and then invokes the operator on the results. -/
def evalAst : Nat → AST → List Value → Except PyErr Value
  | 0, _, _ => .error .fuelErr
  | Nat.succ fuel, .prim name, args => callV (Nat.succ fuel) (.prim name) args
  | Nat.succ _, .const v, _ => .ok v
  | Nat.succ _, .var idx, args => .ok (if idx < args.length then args.getD idx .null else .null)
  | Nat.succ fuel, .apply name cs, args => do
      let vs ← evalList fuel cs args
      applyPrim (callV fuel) name vs

/-- The list comprehension `[sub(*args) for sub in compiled_subs]`:
left-to-right evaluation, first exception propagates. -/
def evalList : Nat → List AST → List Value → Except PyErr (List Value)
  | _, [], _ => .ok []
  | fuel, c :: cs, args => do
      let v ← evalAst fuel c args
      let vs ← evalList fuel cs args
      .ok (v :: vs)

end

mutual

/-- `ProgramSynthesizer._ast_to_code`. -/
def astToCode : AST → String
  | .prim name => name
  | .var idx => "arg" ++ toString idx
  | .apply name cs =>
      name ++ "(" ++ String.intercalate ", " (astToCodeList cs) ++ ")"
  | .const _ => "unknown"

def astToCodeList : List AST → List String
  | [] => []
  | c :: cs => astToCode c :: astToCodeList cs

end

/-- An input/output example (`IOExample`): an input tuple and the
expected output. -/
structure IOExample where
  inputs : List Value
  output : Value

/-- The observable fields of a `SynthesizedProgram`.  The `function`
field of the Python dataclass is the compiled closure, whose behaviour
is fully determined by the AST (`evalAst`); it carries no further
observable state and is omitted from the record. -/
structure SynthesizedProgram where
  code : String
  cost : Nat
  examples_satisfied : Nat
  generalizes : Bool
  deriving DecidableEq, Repr

/-- `_partitions(n, k)`: all ways to write `n` as an ordered sum of `k`
positive integers, in the order the Python generator yields them. -/
def partitions : Nat → Nat → List (List Nat)
  | n, 1 => [[n]]
  | n, Nat.succ (Nat.succ k) =>
      (List.range' 1 (n - 1)).flatMap fun i =>
        (partitions (n - i) (Nat.succ k)).map fun p => i :: p
  | _, 0 => []

/-- `itertools.product`: all tuples drawing one element from each input
list, leftmost position varying slowest. -/
def cartProd : List (List AST) → List (List AST)
  | [] => [[]]
  | l :: ls => l.flatMap fun x => (cartProd ls).map fun xs => x :: xs

/-- The table `[programs of size 1, …, programs of size n]` produced by
`_enumerate_programs`: size 1 yields every primitive name then `Var(0..2)`;
size `s > 1` yields, for each primitive in registry order, each partition
of `s - 1` into `arity` positive parts, and the cartesian product of the
smaller enumerations at those sizes.  (The Python function recurses; the
table makes the recursion on strictly smaller sizes explicit.) -/
def enumTable : Nat → List (List AST)
  | 0 => []
  | Nat.succ n =>
      let prev := enumTable n
      let cur :=
        if n = 0 then
          primNames.map AST.prim ++ (List.range 3).map AST.var
        else
          primNames.flatMap fun name =>
            (partitions n (getArity name)).flatMap fun part =>
              (cartProd (part.map fun s => prev.getD (s - 1) [])).map fun subs =>
                AST.apply name subs
      prev ++ [cur]

/-- `_enumerate_programs(size)` as a list, in generator order. -/
def enumeratePrograms (size : Nat) : List AST :=
  (enumTable size).getD (size - 1) []

/-- The train/test split at the top of `synthesize`: fewer than 2
examples are all training; otherwise the first `len(examples) * 2 // 3`
are training and the rest are held out. -/
def trainTestSplit (examples : List IOExample) : List IOExample × List IOExample :=
  if examples.length < 2 then (examples, [])
  else
    let split := examples.length * 2 / 3
    (examples.take split, examples.drop split)

/-- The training loop of `synthesize`: count matching examples, stopping
the count at the first example whose evaluation raises (the inner
`except: break`). -/
def countSatisfied (fuel : Nat) (ast : AST) : List IOExample → Nat
  | [] => 0
  | ex :: rest =>
    match evalAst fuel ast ex.inputs with
    | .error _ => 0
    | .ok v => (if pyEqB v ex.output then 1 else 0) + countSatisfied fuel ast rest

/-- The held-out loop of `synthesize`: `generalizes` stays true only if
every held-out example evaluates without an exception to the expected
output. -/
def generalizesOn (fuel : Nat) (ast : AST) : List IOExample → Bool
  | [] => true
  | ex :: rest =>
    match evalAst fuel ast ex.inputs with
    | .error _ => false
    | .ok v => if pyEqB v ex.output then generalizesOn fuel ast rest else false

/-- One candidate check inside `synthesize`: compile (a failure skips the
candidate), count satisfied training examples, and if all are satisfied
build the `SynthesizedProgram` with `cost = size`. -/
def tryCandidate (fuel : Nat) (ast : AST) (size : Nat)
    (train test : List IOExample) : Option SynthesizedProgram :=
  if compileOk ast then
    let satisfied := countSatisfied fuel ast train
    if satisfied = train.length then
      some ⟨astToCode ast, size, satisfied, generalizesOn fuel ast test⟩
    else Option.none
  else Option.none

/-- The inner candidate loop of `synthesize` at one size: the counter
`programs_checked` starts at 0 for this size, and the loop breaks (for
this size only) once it reaches the budget. -/
def runSize (fuel : Nat) : List AST → Nat → Nat → Nat →
    List IOExample → List IOExample → Option SynthesizedProgram
  | [], _, _, _, _, _ => Option.none
  | c :: rest, checked, budget, size, train, test =>
    if budget ≤ checked then Option.none
    else
      match tryCandidate fuel c size train test with
      | some p => some p
      | Option.none => runSize fuel rest (checked + 1) budget size train test

/-- The outer size loop of `synthesize`: each size restarts the counter
at 0 and enumerates afresh; `None` only after the last size. -/
def sizesLoop (fuel : Nat) : List Nat → Nat →
    List IOExample → List IOExample → Option SynthesizedProgram
  | [], _, _, _ => Option.none
  | s :: rest, budget, train, test =>
    match runSize fuel (enumeratePrograms s) 0 budget s train test with
    | some p => some p
    | Option.none => sizesLoop fuel rest budget train test

/-- `ProgramSynthesizer.synthesize(examples, timeout_programs)` for a
synthesizer constructed with `max_program_size = maxProgramSize`. -/
def synthesize (fuel maxProgramSize : Nat) (examples : List IOExample)
    (timeoutPrograms : Nat) : Option SynthesizedProgram :=
  let tt := trainTestSplit examples
  sizesLoop fuel (List.range' 1 maxProgramSize) timeoutPrograms tt.1 tt.2

/-- Outcome of scanning one size under the claim's cumulative-budget
reading: a program was found, or the budget ran out (stop the whole
search), or the size was exhausted with the counter carried over. -/
inductive CumScan where
  | found (p : SynthesizedProgram)
  | exhausted
  | through (checked : Nat)

/-- Modelled from the spec: the candidate loop at one size when the
`programs_checked` counter is shared across sizes (the claim's reading of
`synthesize`). -/
def runSizeCum (fuel : Nat) : List AST → Nat → Nat → Nat →
    List IOExample → List IOExample → CumScan
  | [], checked, _, _, _, _ => .through checked
  | c :: rest, checked, budget, size, train, test =>
    if budget ≤ checked then .exhausted
    else
      match tryCandidate fuel c size train test with
      | some p => .found p
      | Option.none => runSizeCum fuel rest (checked + 1) budget size train test

/-- Modelled from the spec: `synthesize` as the claim describes it —
candidates are counted cumulatively across all sizes against the single
budget, and once the budget is exhausted the search stops and returns
`None` instead of moving to the next size. -/
def synthesizeCumulative (fuel maxProgramSize : Nat) (examples : List IOExample)
    (timeoutPrograms : Nat) : Option SynthesizedProgram :=
  let tt := trainTestSplit examples
  go (List.range' 1 maxProgramSize) 0 tt.1 tt.2
where
  go : List Nat → Nat → List IOExample → List IOExample → Option SynthesizedProgram
    | [], _, _, _ => Option.none
    | s :: rest, checked, train, test =>
      match runSizeCum fuel (enumeratePrograms s) checked timeoutPrograms s train test with
      | .found p => some p
      | .exhausted => Option.none
      | .through checked' => go rest checked' train test

/-- The per-size search that `synthesize` actually performs, written
without the counter: at each size the first `timeoutPrograms` candidates
are scanned, and the search continues with the next size when none of
them fits. -/
def synthesizePerSize (fuel maxProgramSize : Nat) (examples : List IOExample)
    (timeoutPrograms : Nat) : Option SynthesizedProgram :=
  let tt := trainTestSplit examples
  (List.range' 1 maxProgramSize).findSome? fun s =>
    ((enumeratePrograms s).take timeoutPrograms).findSome? fun c =>
      tryCandidate fuel c s tt.1 tt.2

mutual

/-- Modelled from the spec: a variant of `evalAst` in which
`Apply('if', _)` short-circuits — the condition child is evaluated first
and then only the selected branch child is evaluated, while every other
`Apply` still evaluates all children left to right.  This is the claim's
reading of the `if` primitive; the source's `_compile_ast` has no such
special case. -/
def evalAstSC : Nat → AST → List Value → Except PyErr Value
  | 0, _, _ => .error .fuelErr
  | Nat.succ fuel, .prim name, args => callV (Nat.succ fuel) (.prim name) args
  | Nat.succ _, .const v, _ => .ok v
  | Nat.succ _, .var idx, args => .ok (if idx < args.length then args.getD idx .null else .null)
  | Nat.succ fuel, .apply "if" [c, t, e], args => do
      let vc ← evalAstSC fuel c args
      if truthy vc then evalAstSC fuel t args else evalAstSC fuel e args
  | Nat.succ fuel, .apply name cs, args => do
      let vs ← evalListSC fuel cs args
      applyPrim (callV fuel) name vs

def evalListSC : Nat → List AST → List Value → Except PyErr (List Value)
  | _, [], _ => .ok []
  | fuel, c :: cs, args => do
      let v ← evalAstSC fuel c args
      let vs ← evalListSC fuel cs args
      .ok (v :: vs)

end

/-- The bounded fixed-point combinator `_fixed_point(f, max_iter)`:
iterate `f`, returning as soon as an iterate is `==`-equal to its
successor (`eqb` models Python `==` on the value domain); `fixRun` is
this same loop threaded through the fuelled `Value` interpreter. -/
def fixedPointIter {α : Type} (eqb : α → α → Bool) (f : α → α) : Nat → α → α
  | 0, r => r
  | Nat.succ k, r =>
      let nr := f r
      if eqb nr r then r else fixedPointIter eqb f k nr

/-- `_fixed_point(f)` with the default cap `max_iter = 100`, as a
function of the start value. -/
def fixedPoint {α : Type} (eqb : α → α → Bool) (f : α → α) (x : α) : α :=
  fixedPointIter eqb f 100 x

/-- The concrete example list `[([1,2,3],) ↦ 2]` separating the per-size
budget of the source from the claim's cumulative budget. -/
def exC1 : List IOExample := [⟨[.list [.int 1, .int 2, .int 3]], .int 2⟩]

/-- Two concrete examples for the train/test-split counterexample. -/
def exA : IOExample := ⟨[.int 0], .int 0⟩

def exB : IOExample := ⟨[.int 1], .int 1⟩

/-- The `Apply('if', …)` program whose untaken branch crashes when
evaluated: its condition is the (truthy) input, its `then` branch is the
input, and its `else` branch is the bare binary primitive `add`, which
raises `TypeError` when called with the single input. -/
def ifProg : AST := .apply "if" [.var 0, .var 0, .prim "add"]

/-! ## Genetic evolution engine (`genetic_operators.py`) -/

/-- The evolution-specific primitive list (`GeneticEvolution.primitives`),
distinct from the synthesizer registry (no `const`, `compose`, `fix`). -/
def primitivesG : List String :=
  ["add", "sub", "mul", "div",
   "and", "or", "not",
   "eq", "gt", "lt",
   "if", "identity",
   "map", "filter", "reduce",
   "head", "tail", "cons"]

/-- `GeneticEvolution._get_arity` (note: unlike the synthesizer's table,
`const`/`compose` are absent and fall to the default 1). -/
def getArityG (name : String) : Nat :=
  if ["add", "sub", "mul", "div", "and", "or", "eq", "gt", "lt", "cons"].contains name then 2
  else if ["not", "identity", "head", "tail"].contains name then 1
  else if ["if", "reduce"].contains name then 3
  else if ["map", "filter"].contains name then 2
  else 1

/-- The constant pool `[0, 1, 2, True, False]` sampled by
`_generate_random_ast` and `_point_mutation`. -/
def constPool : List Value := [.int 0, .int 1, .int 2, .bool true, .bool false]

mutual

/-- Python `==` on AST tuples, as used by `_replace_subtree`'s
`node == target`: tags and operator names compare by string value,
`Var` indices by int value, `Const` payloads by Python `==`
(so `Const(True) == Const(1)`), and `Apply` children elementwise. -/
def astPyEq : AST → AST → Bool
  | .prim a, .prim b => a == b
  | .var i, .var j => i == j
  | .const v, .const w => pyEqB v w
  | .apply n cs, .apply m ds => n == m && astPyEqList cs ds
  | _, _ => false

def astPyEqList : List AST → List AST → Bool
  | [], [] => true
  | c :: cs, d :: ds => astPyEq c d && astPyEqList cs ds
  | _, _ => false

end

mutual

/-- Number of nodes of a tree (used below to show that a tree is never
`==`-equal to one of its strict subtrees). -/
def nodeCount : AST → Nat
  | .apply _ cs => 1 + nodeCountList cs
  | _ => 1

def nodeCountList : List AST → Nat
  | [] => 0
  | c :: cs => nodeCount c + nodeCountList cs

end

mutual

/-- `GeneticEvolution._get_all_subtrees`: the linearized subtree list in
pre-order — the node itself, then (for `Apply` nodes only) the subtree
lists of the children in order. -/
def getAllSubtrees : AST → List AST
  | .apply n cs => .apply n cs :: getAllSubtreesList cs
  | a => [a]

def getAllSubtreesList : List AST → List AST
  | [] => []
  | c :: cs => getAllSubtrees c ++ getAllSubtreesList cs

end

mutual

/-- `replace_in_ast` inside `_replace_subtree`: every node `==`-equal to
`target` is replaced by `newSub`; other `Apply` nodes are rebuilt with
replaced children; other leaves are kept. -/
def replaceAllEq (target newSub : AST) : AST → AST
  | .apply n cs =>
      if astPyEq (.apply n cs) target then newSub
      else .apply n (replaceAllEqList target newSub cs)
  | a => if astPyEq a target then newSub else a

def replaceAllEqList (target newSub : AST) : List AST → List AST
  | [] => []
  | c :: cs => replaceAllEq target newSub c :: replaceAllEqList target newSub cs

end

/-- `GeneticEvolution._replace_subtree(ast, index, new_subtree)`: look up
the `index`-th pre-order subtree and replace every `==`-equal occurrence
of it; an out-of-range index returns the tree unchanged. -/
def replaceSubtree (ast : AST) (index : Nat) (newSub : AST) : AST :=
  let subtrees := getAllSubtrees ast
  if subtrees.length ≤ index then ast
  else replaceAllEq (subtrees.getD index ast) newSub ast

/-- The two children built by `crossover` once the crossover points
`p1`, `p2` have been drawn: each parent copy has the subtree chosen in
the *other* parent substituted at its own chosen subtree. -/
def crossoverChildren (ast1 ast2 : AST) (p1 p2 : Nat) : AST × AST :=
  (replaceSubtree ast1 p1 ((getAllSubtrees ast2).getD p2 ast2),
   replaceSubtree ast2 p2 ((getAllSubtrees ast1).getD p1 ast1))

mutual

/-- The spec's AST invariant: every `Apply` node has exactly
`_get_arity(operator_name)` children. -/
def arityOkB : AST → Bool
  | .apply name cs => (cs.length == getArityG name) && arityOkListB cs
  | _ => true

def arityOkListB : List AST → Bool
  | [] => true
  | c :: cs => arityOkB c && arityOkListB cs

end

/-- Subtree of `a` at a path of child indices (the positions
`getAllSubtrees` linearizes). -/
def subtreeAtPath : AST → List Nat → Option AST
  | a, [] => some a
  | .apply _ cs, i :: p =>
      match cs[i]? with
      | some c => subtreeAtPath c p
      | Option.none => Option.none
  | _, _ :: _ => Option.none

mutual

/-- Modelled from the spec: replacement of exactly the `index`-th
pre-order subtree position (the claim's reading of `_replace_subtree`),
leaving every other position unchanged. -/
def replacePos : AST → Nat → AST → AST
  | _, 0, newSub => newSub
  | .apply n cs, Nat.succ i, newSub => .apply n (replacePosList cs i newSub)
  | a, Nat.succ _, _ => a

def replacePosList : List AST → Nat → AST → List AST
  | [], _, _ => []
  | c :: cs, i, newSub =>
      if i < (getAllSubtrees c).length then replacePos c i newSub :: cs
      else c :: replacePosList cs (i - (getAllSubtrees c).length) newSub

end

/-- The two generation methods of `_generate_random_ast`. -/
inductive GenMethod where
  | grow
  | full
  deriving DecidableEq

/-- Possible outputs of `_generate_random_ast(max_depth, method)`: a
terminal (`Var(0..2)` or a pool constant) is possible exactly when the
depth is exhausted or the method is `grow` (the 0.3 coin); an internal
node is possible exactly when depth remains, picks any primitive of the
evolution list, and builds exactly `arity` children one level lower. -/
inductive GenAst : Nat → GenMethod → AST → Prop where
  | var (d : Nat) (m : GenMethod) (i : Nat) :
      (d = 0 ∨ m = .grow) → i < 3 → GenAst d m (.var i)
  | const (d : Nat) (m : GenMethod) (v : Value) :
      (d = 0 ∨ m = .grow) → v ∈ constPool → GenAst d m (.const v)
  | app (d : Nat) (m : GenMethod) (name : String) (cs : List AST) :
      name ∈ primitivesG → cs.length = getArityG name →
      (∀ c ∈ cs, GenAst d m c) → GenAst (d + 1) m (.apply name cs)

/-- Possible outputs of `_point_mutation(ast)`: a `Var` leaf is resampled
to `Var(0..2)`, a `Const` leaf to a pool constant, an `Apply` node keeps
its children but gets any operator of the evolution list, and any other
node is returned unchanged. -/
inductive PointMut : AST → AST → Prop where
  | var (i j : Nat) : j < 3 → PointMut (.var i) (.var j)
  | const (v w : Value) : w ∈ constPool → PointMut (.const v) (.const w)
  | app (name newName : String) (cs : List AST) :
      newName ∈ primitivesG → PointMut (.apply name cs) (.apply newName cs)
  | other (name : String) : PointMut (.prim name) (.prim name)

/-- Possible outputs of the `subtree` branch of `mutate`: a random valid
subtree index and a fresh tree generated at `max_depth=2` with the
default `grow` method, substituted by `_replace_subtree`. -/
inductive SubtreeMut : AST → AST → Prop where
  | mk (a newSub : AST) (idx : Nat) :
      idx < (getAllSubtrees a).length → GenAst 2 .grow newSub →
      SubtreeMut a (replaceSubtree a idx newSub)

/-- Possible outputs of the `hoist` branch of `mutate`: one of the
non-root subtrees when there is one, otherwise the tree unchanged. -/
inductive HoistMut : AST → AST → Prop where
  | mk (a : AST) (idx : Nat) :
      0 < idx → idx < (getAllSubtrees a).length →
      HoistMut a ((getAllSubtrees a).getD idx a)
  | skip (a : AST) : (getAllSubtrees a).length ≤ 1 → HoistMut a a

/-- Possible AST outcomes of `mutate` once the mutation coin fires: one
of the three mutation kinds, chosen uniformly. -/
inductive MutAst : AST → AST → Prop where
  | point (a b : AST) : PointMut a b → MutAst a b
  | subtree (a b : AST) : SubtreeMut a b → MutAst a b
  | hoist (a b : AST) : HoistMut a b → MutAst a b

/-- Possible child-AST pairs of `crossover`: the crossover coin misses
(deep copies), or subtree indices are drawn in each parent's linearized
subtree list and the chosen subtrees are swapped via `_replace_subtree`. -/
inductive CrossAst : AST → AST → AST → AST → Prop where
  | skip (a b : AST) : CrossAst a b a b
  | swap (a b : AST) (p1 p2 : Nat) :
      p1 < (getAllSubtrees a).length → p2 < (getAllSubtrees b).length →
      CrossAst a b (crossoverChildren a b p1 p2).1 (crossoverChildren a b p1 p2).2

/-- A `GeneticOperator` dataclass value: AST, fitness (a Python float,
modelled as an exact rational), age, lineage ids (`id()` addresses,
modelled as opaque numbers) and mutation counter. -/
structure GOp where
  ast : AST
  fitness : ℚ
  age : Nat
  parentIds : List Nat
  mutations : Nat

/-- One entry of `fitness_history`. -/
structure FitRec where
  generation : Nat
  avgFitness : ℚ
  maxFitness : ℚ
  bestEver : ℚ

/-- The mutable state of a `GeneticEvolution` instance that the
generational loop touches.  The rates (`mutation_rate`,
`crossover_rate`) only drive coin flips, which the relations below
quantify over, so they are not carried. -/
structure GAState where
  populationSize : Nat
  tournamentSize : Nat
  population : List GOp
  generation : Nat
  bestEver : Option GOp
  fitnessHistory : List FitRec

/-- Python `max(xs, key=lambda op: op.fitness)` starting from a first
element: a later element replaces the current best only when strictly
fitter, so the first maximum wins. -/
def maxByFit (acc : GOp) : List GOp → GOp
  | [] => acc
  | x :: xs => maxByFit (if acc.fitness < x.fitness then x else acc) xs

/-- `max(population, key=...)`; `None` models the `ValueError` Python
raises on an empty population. -/
def popMax : List GOp → Option GOp
  | [] => Option.none
  | x :: xs => some (maxByFit x xs)

/-- `GeneticEvolution.evaluate_fitness(fitness_function)`: write each
individual's fitness (an exception during evaluation scores 0.0, which
`f` models by returning `none`), replace `best_ever` when the current
best is strictly fitter (or `best_ever` is unset), and append the
statistics record.  `None` models the `ValueError` from `max` on an
empty population. -/
def evaluateFitness (f : AST → Option ℚ) (st : GAState) : Option GAState :=
  match st.population with
  | [] => Option.none
  | p0 :: rest =>
      let p0' := { p0 with fitness := (f p0.ast).getD 0 }
      let rest' := rest.map fun op => { op with fitness := (f op.ast).getD 0 }
      let pop' := p0' :: rest'
      let bestCur := maxByFit p0' rest'
      let bestEver' :=
        match st.bestEver with
        | Option.none => bestCur
        | some b => if b.fitness < bestCur.fitness then bestCur else b
      let avg := (pop'.map (·.fitness)).sum / (pop'.length : ℚ)
      some { st with
        population := pop',
        bestEver := some bestEver',
        fitnessHistory := st.fitnessHistory ++
          [⟨st.generation, avg, bestCur.fitness, bestEver'.fitness⟩] }

/-- `GeneticEvolution.selection()`: tournament selection — draw
`tournament_size` distinct individuals (`random.sample`, any order) and
take the fittest, first winner on ties. -/
def SelectionRel (st : GAState) (op : GOp) : Prop :=
  ∃ (t0 : GOp) (ts : List GOp),
    (t0 :: ts).Subperm st.population ∧
    (t0 :: ts).length = st.tournamentSize ∧
    op = maxByFit t0 ts

/-- `GeneticEvolution.crossover(parent1, parent2)`: either the crossover
coin misses and both parents are returned as deep copies, or subtree
indices are drawn and swapped; the children are fresh `GeneticOperator`s
with default fitness 0, age 0, mutation count 0 and the parents'
(opaque) ids as lineage. -/
def CrossRel (p1 p2 c1 c2 : GOp) : Prop :=
  (c1 = p1 ∧ c2 = p2) ∨
  ∃ (i j pidA pidB : Nat),
    i < (getAllSubtrees p1.ast).length ∧ j < (getAllSubtrees p2.ast).length ∧
    c1 = ⟨(crossoverChildren p1.ast p2.ast i j).1, 0, 0, [pidA, pidB], 0⟩ ∧
    c2 = ⟨(crossoverChildren p1.ast p2.ast i j).2, 0, 0, [pidB, pidA], 0⟩

/-- `GeneticEvolution.mutate(operator)`: either the mutation coin misses
and the operator is returned as a deep copy, or one of the three
mutation kinds fires and a fresh `GeneticOperator` is built with the
mutated AST, default fitness and age, the original's (opaque) id as
lineage, and an incremented mutation counter. -/
def MutRel (op mt : GOp) : Prop :=
  mt = op ∨
  ∃ (a' : AST) (pid : Nat),
    MutAst op.ast a' ∧ mt = ⟨a', 0, 0, [pid], op.mutations + 1⟩

/-- The offspring `while` loop of `evolve_generation`: starting from the
elitism seed, repeatedly select two parents, cross them over, mutate
both children, zero the children's ages, and append the first child and
— when there is still room — the second, until the population size is
reached. -/
inductive FillFrom (st : GAState) : List GOp → List GOp → Prop where
  | stop (cur : List GOp) : st.populationSize ≤ cur.length → FillFrom st cur cur
  | step (cur final : List GOp) (p1 p2 c1 c2 m1 m2 : GOp) :
      cur.length < st.populationSize →
      SelectionRel st p1 → SelectionRel st p2 →
      CrossRel p1 p2 c1 c2 → MutRel c1 m1 → MutRel c2 m2 →
      FillFrom st
        (cur ++
          if cur.length + 1 < st.populationSize then
            [{ m1 with age := 0 }, { m2 with age := 0 }]
          else
            [{ m1 with age := 0 }]) final →
      FillFrom st cur final

/-- `GeneticEvolution.evolve_generation(fitness_function)`: evaluate the
population, seed the next generation with a copy of the current best
(elitism), fill it with offspring, and install it with the generation
counter bumped.  (The `age += 1` pass runs on the old population objects
just before they are discarded; the deep-copied elite and children are
unaffected, so it leaves no trace in the new state.) -/
def EvolveStep (f : AST → Option ℚ) (st st' : GAState) : Prop :=
  ∃ (st₁ : GAState) (best : GOp) (newpop : List GOp),
    evaluateFitness f st = some st₁ ∧
    some best = popMax st₁.population ∧
    FillFrom st₁ [best] newpop ∧
    st' = { st₁ with population := newpop, generation := st₁.generation + 1 }

/-- Zero or more `evolve_generation` calls, each with its own fitness
function and random choices. -/
inductive EvoReach : GAState → GAState → Prop where
  | refl (st : GAState) : EvoReach st st
  | step (st st₁ st₂ : GAState) (f : AST → Option ℚ) :
      EvolveStep f st st₁ → EvoReach st₁ st₂ → EvoReach st st₂

/-- A concrete one-generation run for the witness: population size 1,
tournament size 1, a single individual, constant fitness 0. -/
def gaP0 : GOp := ⟨.var 0, 0, 0, [], 0⟩

def gaBW : GOp := ⟨.var 1, 0, 0, [], 0⟩

def gaW0 : GAState := ⟨1, 1, [gaP0], 0, some gaBW, []⟩

def gaW1 : GAState := ⟨1, 1, [gaP0], 0, some gaBW, [⟨0, 0, 0, 0⟩]⟩

def gaW2 : GAState := ⟨1, 1, [gaP0], 1, some gaBW, [⟨0, 0, 0, 0⟩]⟩

/-! ## Meta-strategy selector (`meta_learner.py`) -/

/-- The counters of a `SynthesisStrategy`; the wrapped search callable is
not state (its outcome per call is supplied by the `SynthOutcome`
oracle below), and times are Python floats modelled exactly. -/
structure Strategy where
  name : String
  successCount : Nat
  failureCount : Nat
  totalTime : ℚ
  avgProgramSize : ℚ

/-- `ProblemCharacteristics`. -/
structure ProblemChars where
  numExamples : Nat
  inputTypes : List String
  outputType : String
  exampleComplexity : ℚ

/-- `ProblemCharacteristics.signature()`:
`f"{num_examples}_{len(input_types)}_{output_type}"`. -/
def sigOf (c : ProblemChars) : String :=
  toString c.numExamples ++ "_" ++ toString c.inputTypes.length ++ "_" ++ c.outputType

/-- One record of `success_patterns[signature]`. -/
structure SuccessRec where
  strategy : String
  time : ℚ
  programSize : Nat

/-- One record of `problem_history` (the optional `'error'` string of
the exception branch carries no information the claims mention and is
not modelled). -/
structure HistRec where
  problem : ProblemChars
  strategy : String
  success : Bool
  time : ℚ

/-- What a `synthesize_func` call can do: raise, or return `None`, or
return a result — a result carries `cost` when the object has that
attribute. -/
structure SynthResult where
  cost : Option Nat

inductive SynthOutcome where
  | raises
  | returns (r : Option SynthResult)

/-- Python dicts are modelled as insertion-ordered association lists
with unique keys (lookup returns the first — only — entry). -/
def dictGet? {α : Type} : List (String × α) → String → Option α
  | [], _ => Option.none
  | p :: ps, k => if p.1 = k then some p.2 else dictGet? ps k

/-- `d[k] = v`: overwrite in place when the key exists (keeping its
position), append otherwise. -/
def dictSet {α : Type} : List (String × α) → String → α → List (String × α)
  | [], k, v => [(k, v)]
  | p :: ps, k, v => if p.1 = k then (k, v) :: ps else p :: dictSet ps k v

/-- `defaultdict(list)` append: `d[k].append(r)`. -/
def dictAppend {α : Type} : List (String × List α) → String → α → List (String × List α)
  | [], k, r => [(k, [r])]
  | p :: ps, k, r => if p.1 = k then (p.1, p.2 ++ [r]) :: ps else p :: dictAppend ps k r

/-- The mutable state of a `MetaLearner`. -/
structure MLState where
  strategies : List (String × Strategy)
  problemHistory : List HistRec
  strategyMapping : List (String × String)
  successPatterns : List (String × List SuccessRec)

/-- `MetaLearner.register_strategy(name, fn)`. -/
def registerStrategy (st : MLState) (name : String) : MLState :=
  { st with strategies := dictSet st.strategies name ⟨name, 0, 0, 0, 0⟩ }

/-- `MetaLearner.select_strategy`: the memoized mapping first, then the
`"enumerative"` default, then a uniformly random registered strategy
(`randPick` supplies the random index); `none` models the `IndexError`
of `random.choice` on an empty registry. -/
def selectStrategy (st : MLState) (sig : String) (randPick : Nat) : Option String :=
  match dictGet? st.strategyMapping sig with
  | some name => some name
  | Option.none =>
      if (dictGet? st.strategies "enumerative").isSome then some "enumerative"
      else
        match st.strategies with
        | [] => Option.none
        | _ :: _ =>
            some ((st.strategies.map Prod.fst).getD
              (randPick % st.strategies.length) "")

/-- `sum(xs) / len(xs)`. -/
def meanQ (l : List ℚ) : ℚ := l.sum / (l.length : ℚ)

/-- The `strategy_times` table of `_update_strategy_mapping`: a
`defaultdict(list)` filled in success-record order, so keys appear in
first-success order. -/
def groupTimes (rs : List SuccessRec) : List (String × List ℚ) :=
  rs.foldl (fun acc r => dictAppend acc r.strategy r.time) []

/-- Python `min(items, key=mean)`: a later item wins only with a
strictly smaller mean, so on ties the earliest-inserted key wins. -/
def minByMean (x0 : String × List ℚ) : List (String × List ℚ) → String × List ℚ
  | [] => x0
  | x :: xs => minByMean (if meanQ x.2 < meanQ x0.2 then x else x0) xs

/-- `MetaLearner._update_strategy_mapping`: read (and, being a
`defaultdict`, materialize) `success_patterns[signature]`; when it is
non-empty, group the recorded times by strategy and map the signature
to the strategy of smallest mean time (first-inserted wins ties). -/
def updateStrategyMapping (st : MLState) (sig : String) : MLState :=
  let touched :=
    if (dictGet? st.successPatterns sig).isSome then st.successPatterns
    else st.successPatterns ++ [(sig, [])]
  match (dictGet? st.successPatterns sig).getD [] with
  | [] => { st with successPatterns := touched }
  | r :: rs =>
      match groupTimes (r :: rs) with
      | [] => { st with successPatterns := touched }
      | g :: gs =>
          { st with successPatterns := touched,
                    strategyMapping :=
                      dictSet st.strategyMapping sig (minByMean g gs).1 }

/-- `MetaLearner.attempt_synthesis(problem_chars, examples, timeout)`.
The outer `none` models the exceptions raised *before* the `try` block
(`IndexError` from selection on an empty registry, `KeyError` when the
selected name is unregistered); otherwise the pair (returned value, new
state) is produced.  `outcome` is what the wrapped strategy call does
and `elapsed` the measured wall time. -/
def attemptSynthesis (st : MLState) (chars : ProblemChars)
    (outcome : SynthOutcome) (elapsed : ℚ) (randPick : Nat) :
    Option (Option SynthResult × MLState) :=
  let sig := sigOf chars
  match selectStrategy st sig randPick with
  | Option.none => Option.none
  | some name =>
    match dictGet? st.strategies name with
    | Option.none => Option.none
    | some strat =>
      match outcome with
      | .raises =>
          let strat' := { strat with failureCount := strat.failureCount + 1,
                                     totalTime := strat.totalTime + elapsed }
          some (Option.none,
            { st with strategies := dictSet st.strategies name strat',
                      problemHistory := st.problemHistory ++
                        [⟨chars, name, false, elapsed⟩] })
      | .returns Option.none =>
          let strat' := { strat with failureCount := strat.failureCount + 1,
                                     totalTime := strat.totalTime + elapsed }
          some (Option.none,
            { st with strategies := dictSet st.strategies name strat',
                      problemHistory := st.problemHistory ++
                        [⟨chars, name, false, elapsed⟩] })
      | .returns (some res) =>
          let newSucc := strat.successCount + 1
          let avg' :=
            match res.cost with
            | some c =>
                (strat.avgProgramSize * ((newSucc : ℚ) - 1) + (c : ℚ)) / (newSucc : ℚ)
            | Option.none => strat.avgProgramSize
          let strat' := { strat with successCount := newSucc,
                                     totalTime := strat.totalTime + elapsed,
                                     avgProgramSize := avg' }
          let st₁ := { st with strategies := dictSet st.strategies name strat' }
          let newRec : SuccessRec := ⟨name, elapsed, res.cost.getD 0⟩
          let st₂ := { st₁ with
            successPatterns := dictAppend st₁.successPatterns sig newRec }
          let st₃ := updateStrategyMapping st₂ sig
          let st₄ := { st₃ with
            problemHistory := st₃.problemHistory ++ [⟨chars, name, true, elapsed⟩] }
          some (some res, st₄)

/-- States reachable from a fresh `MetaLearner()` through
`register_strategy` and (non-raising) `attempt_synthesis` calls. -/
inductive MLReach : MLState → Prop where
  | init : MLReach ⟨[], [], [], []⟩
  | register (st : MLState) (name : String) :
      MLReach st → MLReach (registerStrategy st name)
  | attempt (st : MLState) (chars : ProblemChars) (outcome : SynthOutcome)
      (elapsed : ℚ) (randPick : Nat) (res : Option SynthResult) (st' : MLState) :
      MLReach st →
      attemptSynthesis st chars outcome elapsed randPick = some (res, st') →
      MLReach st'

/-- Modelled from the spec: the claim's formula for the recomputed
mapping — among the strategies that have ever succeeded on the
signature, the one of lowest mean recorded time, ties broken by the
alphabetically first name. -/
def claimBest (entries : List SuccessRec) : Option String :=
  match (entries.map (·.strategy)).dedup with
  | [] => Option.none
  | n :: ns =>
      some (ns.foldl
        (fun best m =>
          let mb := meanQ ((entries.filter (·.strategy == best)).map (·.time))
          let mm := meanQ ((entries.filter (·.strategy == m)).map (·.time))
          if mm < mb ∨ (mm = mb ∧ m < best) then m else best)
        n)

/-- A fresh meta-learner with the single registered strategy
`"enumerative"`, and a concrete problem shape. -/
def mlW0 : MLState := ⟨[("enumerative", ⟨"enumerative", 0, 0, 0, 0⟩)], [], [], []⟩

def charsW : ProblemChars := ⟨3, ["int"], "int", 0⟩

/-- The invariant that makes C7 hold on reachable states: a signature's
success records are all by one strategy, which is exactly the mapped
strategy (the mapping locks selection to itself, so no other strategy
can ever succeed on an already-mapped signature). -/
def MLInv (st : MLState) : Prop :=
  ∀ sig : String,
    (∀ entries, dictGet? st.successPatterns sig = some entries →
      entries ≠ [] ∧ ∃ s, (∀ e ∈ entries, e.strategy = s) ∧
        dictGet? st.strategyMapping sig = some s) ∧
    (∀ s, dictGet? st.strategyMapping sig = some s →
      ∃ entries, dictGet? st.successPatterns sig = some entries ∧ entries ≠ [] ∧
        ∀ e ∈ entries, e.strategy = s)

/-- The state of the success branch of `attempt_synthesis` just before
`_update_strategy_mapping` runs: counters bumped and the success record
appended (named so the proofs below can take the branch apart;
definitionally equal to the branch's intermediate `st₂`). -/
def preState (st : MLState) (chars : ProblemChars) (res : SynthResult)
    (elapsed : ℚ) (name : String) (strat : Strategy) : MLState :=
  let sig := sigOf chars
  let newSucc := strat.successCount + 1
  let avg' :=
    match res.cost with
    | some c =>
        (strat.avgProgramSize * ((newSucc : ℚ) - 1) + (c : ℚ)) / (newSucc : ℚ)
    | Option.none => strat.avgProgramSize
  let strat' := { strat with successCount := newSucc,
                             totalTime := strat.totalTime + elapsed,
                             avgProgramSize := avg' }
  let st₁ := { st with strategies := dictSet st.strategies name strat' }
  let newRec : SuccessRec := ⟨name, elapsed, res.cost.getD 0⟩
  { st₁ with successPatterns := dictAppend st₁.successPatterns sig newRec }

/-- The state produced by the whole success branch of
`attempt_synthesis`. -/
def successState (st : MLState) (chars : ProblemChars) (res : SynthResult)
    (elapsed : ℚ) (name : String) (strat : Strategy) : MLState :=
  let st₃ := updateStrategyMapping (preState st chars res elapsed name strat) (sigOf chars)
  { st₃ with
    problemHistory := st₃.problemHistory ++ [⟨chars, name, true, elapsed⟩] }

/-- The state after one successful `attempt_synthesis` on `mlW0` (the
wrapped strategy returned a result object without a `cost` attribute,
measured time 1). -/
def mlW1 : MLState :=
  ⟨[("enumerative", ⟨"enumerative", 0 + 1, 0, 0 + 1, 0⟩)],
   [⟨charsW, "enumerative", true, 1⟩],
   [("3_1_int", "enumerative")],
   [("3_1_int", [⟨"enumerative", 1, 0⟩])]⟩

/-! ## Theorems -/

theorem fixedPointIter_spec {α : Type} (eqb : α → α → Bool) (f : α → α) :
    ∀ (n : Nat) (x : α),
      (∃ k, k ≤ n ∧ fixedPointIter eqb f n x = f^[k] x) ∧
      ((∀ k, k < n → eqb (f (f^[k] x)) (f^[k] x) = false) →
        fixedPointIter eqb f n x = f^[n] x) ∧
      (∀ k, k < n → eqb (f (f^[k] x)) (f^[k] x) = true →
        (∀ j, j < k → eqb (f (f^[j] x)) (f^[j] x) = false) →
        fixedPointIter eqb f n x = f^[k] x) := by
  intro n
  induction n with
  | zero =>
      intro x
      refine ⟨⟨0, le_refl 0, by simp [fixedPointIter]⟩, fun _ => rfl,
        fun k hk => absurd hk (Nat.not_lt_zero k)⟩
  | succ n ih =>
      intro x
      by_cases h : eqb (f x) x = true
      · refine ⟨⟨0, Nat.zero_le _, by simp [fixedPointIter, h]⟩, ?_, ?_⟩
        · intro hall
          have h0 := hall 0 (Nat.succ_pos n)
          simp only [Function.iterate_zero_apply] at h0
          rw [h0] at h
          exact absurd h (by simp)
        · intro k _ _ hmin
          rcases Nat.eq_zero_or_pos k with rfl | hk0
          · simp [fixedPointIter, h]
          · have h0 := hmin 0 hk0
            simp only [Function.iterate_zero_apply] at h0
            rw [h0] at h
            exact absurd h (by simp)
      · have hstep : fixedPointIter eqb f (n + 1) x = fixedPointIter eqb f n (f x) := by
          simp [fixedPointIter, h]
        have ihx := ih (f x)
        refine ⟨?_, ?_, ?_⟩
        · obtain ⟨k, hk, hres⟩ := ihx.1
          exact ⟨k + 1, Nat.succ_le_succ hk, by
            rw [hstep, hres, ← Function.iterate_succ_apply]⟩
        · intro hall
          have := ihx.2.1 (fun k hk => by
            have := hall (k + 1) (Nat.succ_lt_succ hk)
            simpa [Function.iterate_succ_apply] using this)
          rw [hstep, this, ← Function.iterate_succ_apply]
        · intro k hk hfix hmin
          rcases Nat.eq_zero_or_pos k with rfl | hk0
          · simp only [Function.iterate_zero_apply] at hfix
            exact absurd hfix (by simp [h])
          · obtain ⟨k', rfl⟩ : ∃ k', k = k' + 1 := ⟨k - 1, by omega⟩
            have hfix' : eqb (f (f^[k'] (f x))) (f^[k'] (f x)) = true := by
              simpa [Function.iterate_succ_apply] using hfix
            have hmin' : ∀ j, j < k' → eqb (f (f^[j] (f x))) (f^[j] (f x)) = false := by
              intro j hj
              have := hmin (j + 1) (Nat.succ_lt_succ hj)
              simpa [Function.iterate_succ_apply] using this
            have := ihx.2.2 k' (Nat.lt_of_succ_lt_succ hk) hfix' hmin'
            rw [hstep, this, ← Function.iterate_succ_apply]

/-- C9: the compiled `fix(f)` applied to `x` performs at most 100
iterations of `f`; it returns the first iterate that is `==`-equal to
its image under `f` when one occurs within the cap, and the value after
the 100th iteration otherwise.  Totality of `fixedPoint` is the
termination guarantee: a single evaluation of `fix` cannot run
unboundedly (given that `f` itself returns). -/
theorem fix_combinator_spec {α : Type} (eqb : α → α → Bool) (f : α → α) (x : α) :
    (∃ k, k ≤ 100 ∧ fixedPoint eqb f x = f^[k] x) ∧
    ((∀ k, k < 100 → eqb (f (f^[k] x)) (f^[k] x) = false) →
      fixedPoint eqb f x = f^[100] x) ∧
    (∀ k, k < 100 → eqb (f (f^[k] x)) (f^[k] x) = true →
      (∀ j, j < k → eqb (f (f^[j] x)) (f^[j] x) = false) →
      fixedPoint eqb f x = f^[k] x) :=
  fixedPointIter_spec eqb f 100 x

/-- Witness for C9 at a concrete function with no fixpoint: iterating
`Nat.succ` from 0 runs the full cap and returns the 100th iterate. -/
theorem fix_combinator_spec_witness :
    fixedPoint (fun a b : Nat => a == b) Nat.succ 0 = Nat.succ^[100] 0 :=
  (fix_combinator_spec (fun a b : Nat => a == b) Nat.succ 0).2.1
    (fun k _ => by simp)

theorem runSize_eq_findSome? (fuel size budget : Nat) (train test : List IOExample) :
    ∀ (cands : List AST) (checked : Nat),
      runSize fuel cands checked budget size train test =
        (cands.take (budget - checked)).findSome? fun c =>
          tryCandidate fuel c size train test := by
  intro cands
  induction cands with
  | nil => intro checked; simp [runSize]
  | cons c rest ih =>
      intro checked
      by_cases h : budget ≤ checked
      · have h0 : budget - checked = 0 := by omega
        simp [runSize, h, h0]
      · have h1 : budget - checked = (budget - (checked + 1)) + 1 := by omega
        rw [h1, List.take_succ_cons]
        simp only [runSize, if_neg h]
        cases htc : tryCandidate fuel c size train test with
        | none => simp [List.findSome?, htc, ih]
        | some p => simp [List.findSome?, htc]

theorem sizesLoop_eq_findSome? (fuel budget : Nat) (train test : List IOExample) :
    ∀ (sizes : List Nat),
      sizesLoop fuel sizes budget train test =
        sizes.findSome? fun s =>
          ((enumeratePrograms s).take budget).findSome? fun c =>
            tryCandidate fuel c s train test := by
  intro sizes
  induction sizes with
  | nil => simp [sizesLoop]
  | cons s rest ih =>
      have hr := runSize_eq_findSome? fuel s budget train test (enumeratePrograms s) 0
      simp only [Nat.sub_zero] at hr
      cases hfs : ((enumeratePrograms s).take budget).findSome? fun c =>
          tryCandidate fuel c s train test with
      | none => simp [sizesLoop, hr, hfs, List.findSome?, ih]
      | some p => simp [sizesLoop, hr, hfs, List.findSome?]

/-- C1 (amended): the `programs_checked` counter of `synthesize` resets
at every size — each size scans at most `timeout_programs` candidates,
and when a size's budget is exhausted the search continues with the next
size (returning `None` only after all sizes have been tried), rather
than stopping the whole search. -/
theorem synthesize_budget_resets_per_size (fuel maxProgramSize : Nat)
    (examples : List IOExample) (timeoutPrograms : Nat) :
    synthesize fuel maxProgramSize examples timeoutPrograms =
      synthesizePerSize fuel maxProgramSize examples timeoutPrograms := by
  unfold synthesize synthesizePerSize
  exact sizesLoop_eq_findSome? fuel timeoutPrograms _ _ _

/-- C1 (counterexample): with budget 100 and `max_program_size = 2`, no
size-1 candidate fits (there are 24), and the first fitting size-2
candidate is the 91st of its size.  Counting cumulatively, the budget of
100 is exhausted after 24 + 76 checks — before the 91st size-2 candidate
— so under the claim's reading the search stops and returns `None`; the
source resets the counter per size and returns the program. -/
theorem synthesize_cumulative_budget_counterexample :
    synthesize 40 2 exC1 100 = some ⟨"head(tail)", 2, 1, true⟩ ∧
    synthesizeCumulative 40 2 exC1 100 = Option.none :=
  ⟨rfl, rfl⟩

/-- C3 (counterexample): with `n = 2` examples the source takes
`2 * 2 // 3 = 1` example as the training prefix, while the claim's
`⌈2n/3⌉ = 2` would take both. -/
theorem trainTestSplit_ceil_counterexample :
    trainTestSplit [exA, exB] = ([exA], [exB]) ∧
    (2 * [exA, exB].length + 2) / 3 = 2 ∧
    (trainTestSplit [exA, exB]).1 ≠ [exA, exB].take 2 := by
  refine ⟨rfl, rfl, fun h => ?_⟩
  have := congrArg List.length h
  simp [trainTestSplit] at this

/-- C3 (amended): for `n ≥ 2` the training prefix is the first
`⌊2n/3⌋` examples (floor, not ceiling) and the held-out suffix is the
remainder; with fewer than 2 examples all are training and the held-out
set is empty. -/
theorem trainTestSplit_floor (examples : List IOExample) :
    (2 ≤ examples.length →
      trainTestSplit examples =
        (examples.take (examples.length * 2 / 3),
         examples.drop (examples.length * 2 / 3))) ∧
    (examples.length < 2 → trainTestSplit examples = (examples, [])) ∧
    (trainTestSplit examples).1 ++ (trainTestSplit examples).2 = examples := by
  by_cases h : examples.length < 2
  · refine ⟨fun h2 => absurd h (by omega), fun _ => by simp [trainTestSplit, h], ?_⟩
    simp [trainTestSplit, h]
  · refine ⟨fun _ => by simp [trainTestSplit, h], fun h2 => absurd h2 h, ?_⟩
    simp [trainTestSplit, h, List.take_append_drop]

theorem trainTestSplit_floor_witness :
    trainTestSplit [exA, exB, exA] = ([exA, exB], [exA]) := by
  have h := (trainTestSplit_floor [exA, exB, exA]).1 (by simp)
  simpa using h

/-- C4 (counterexample): on input `1` the condition is truthy, yet the
compiled `Apply('if', …)` raises because the `else` child is evaluated
too; the short-circuit evaluator the claim describes returns `1`. -/
theorem if_shortcircuit_counterexample :
    evalAst 40 ifProg [.int 1] = .error .typeErr ∧
    truthy (.int 1) = true ∧
    evalAstSC 40 ifProg [.int 1] = .ok (.int 1) :=
  ⟨rfl, rfl, rfl⟩

/-- C4 (amended): `Apply('if', [c, t, e])` evaluates all three children
left to right like every other `Apply`; the `if` primitive then merely
selects one of the two already-computed branch values by the condition's
truthiness.  No branch is short-circuited. -/
theorem applyPrim_if (call : Value → List Value → Except PyErr Value) (a b c : Value) :
    applyPrim call "if" [a, b, c] = .ok (if truthy a then b else c) := rfl

theorem evalAst_apply_if (fuel : Nat) (c t e : AST) (args : List Value) :
    evalAst (fuel + 1) (.apply "if" [c, t, e]) args = (do
      let vc ← evalAst fuel c args
      let vt ← evalAst fuel t args
      let ve ← evalAst fuel e args
      pure (if truthy vc then vt else ve)) := by
  show (do
      let vs ← evalList fuel [c, t, e] args
      applyPrim (callV fuel) "if" vs) = _
  cases hc : evalAst fuel c args with
  | error err => simp [evalList, hc, bind, Except.bind]
  | ok vc =>
      cases ht : evalAst fuel t args with
      | error err => simp [evalList, hc, ht, bind, Except.bind]
      | ok vt =>
          cases he : evalAst fuel e args with
          | error err => simp [evalList, hc, ht, he, bind, Except.bind]
          | ok ve => simp [evalList, hc, ht, he, bind, Except.bind, applyPrim_if, pure, Except.pure]

/-- C10: on an empty example list (positive budget, positive max size)
`synthesize` returns the very first enumerated size-1 candidate — the
primitive leaf `add` — as a program with `examples_satisfied = 0` and
`generalizes = true`, rather than `None`. -/
theorem synthesize_empty_examples (fuel maxSize budget : Nat)
    (hm : 1 ≤ maxSize) (hb : 1 ≤ budget) :
    (enumeratePrograms 1).head? = some (.prim "add") ∧
    synthesize fuel maxSize [] budget = some ⟨"add", 1, 0, true⟩ := by
  refine ⟨rfl, ?_⟩
  obtain ⟨m, rfl⟩ : ∃ m, maxSize = m + 1 := ⟨maxSize - 1, by omega⟩
  show sizesLoop fuel (List.range' 1 (m + 1)) budget [] [] = _
  have hr : List.range' 1 (m + 1) = 1 :: List.range' 2 m := rfl
  rw [hr]
  have henum : enumeratePrograms 1 = AST.prim "add" ::
      (primNames.tail.map AST.prim ++ (List.range 3).map AST.var) := rfl
  have hbudget : ¬ budget ≤ 0 := by omega
  have htry : tryCandidate fuel (.prim "add") 1 [] [] = some ⟨"add", 1, 0, true⟩ := by
    simp [tryCandidate, compileOk, countSatisfied, generalizesOn, astToCode, primNames]
  simp [sizesLoop, henum, runSize, hbudget, htry]

theorem synthesize_empty_examples_witness :
    (enumeratePrograms 1).head? = some (.prim "add") ∧
    synthesize 40 3 [] 5 = some ⟨"add", 1, 0, true⟩ :=
  synthesize_empty_examples 40 3 5 (by norm_num) (by norm_num)

theorem replaceAllEqList_eq_map (target newSub : AST) :
    ∀ cs, replaceAllEqList target newSub cs = cs.map (replaceAllEq target newSub)
  | [] => rfl
  | c :: cs => by
      simp [replaceAllEqList, replaceAllEqList_eq_map target newSub cs]

mutual

theorem astPyEq_nodeCount : ∀ (x y : AST), astPyEq x y = true → nodeCount x = nodeCount y
  | .prim _, .prim _, _ => rfl
  | .var _, .var _, _ => rfl
  | .const _, .const _, _ => rfl
  | .apply _ cs, .apply _ ds, h => by
      simp only [astPyEq, Bool.and_eq_true] at h
      simp only [nodeCount, astPyEqList_nodeCount cs ds h.2]
  | .prim _, .var _, h => Bool.noConfusion h
  | .prim _, .const _, h => Bool.noConfusion h
  | .prim _, .apply _ _, h => Bool.noConfusion h
  | .var _, .prim _, h => Bool.noConfusion h
  | .var _, .const _, h => Bool.noConfusion h
  | .var _, .apply _ _, h => Bool.noConfusion h
  | .const _, .prim _, h => Bool.noConfusion h
  | .const _, .var _, h => Bool.noConfusion h
  | .const _, .apply _ _, h => Bool.noConfusion h
  | .apply _ _, .prim _, h => Bool.noConfusion h
  | .apply _ _, .var _, h => Bool.noConfusion h
  | .apply _ _, .const _, h => Bool.noConfusion h

theorem astPyEqList_nodeCount :
    ∀ (xs ys : List AST), astPyEqList xs ys = true → nodeCountList xs = nodeCountList ys
  | [], [], _ => rfl
  | x :: xs, y :: ys, h => by
      simp only [astPyEqList, Bool.and_eq_true] at h
      simp only [nodeCountList, astPyEq_nodeCount x y h.1, astPyEqList_nodeCount xs ys h.2]
  | [], _ :: _, h => Bool.noConfusion h
  | _ :: _, [], h => Bool.noConfusion h

end

theorem nodeCount_pos : ∀ a : AST, 1 ≤ nodeCount a := by
  intro a
  cases a <;> simp [nodeCount]

theorem nodeCount_le_of_mem : ∀ (cs : List AST) (c : AST), c ∈ cs →
    nodeCount c ≤ nodeCountList cs := by
  intro cs
  induction cs with
  | nil => intro c hc; exact absurd hc (List.not_mem_nil c)
  | cons d ds ih =>
      intro c hc
      rcases List.mem_cons.1 hc with rfl | hc'
      · simp [nodeCountList]
      · have h1 := ih c hc'
        have h2 := nodeCount_pos d
        simp only [nodeCountList]
        omega

theorem subtreeAtPath_nodeCount : ∀ (q : List Nat) (a s : AST),
    subtreeAtPath a q = some s →
    nodeCount s ≤ nodeCount a ∧ (q ≠ [] → nodeCount s < nodeCount a) := by
  intro q
  induction q with
  | nil =>
      intro a s h
      simp only [subtreeAtPath, Option.some.injEq] at h
      subst h
      exact ⟨le_refl _, fun h' => absurd rfl h'⟩
  | cons i p ih =>
      intro a s h
      cases a with
      | apply n cs =>
          simp only [subtreeAtPath] at h
          cases hg : cs[i]? with
          | none => rw [hg] at h; exact absurd h (by simp)
          | some c =>
              rw [hg] at h
              have hmem : c ∈ cs := List.getElem?_mem hg
              have hc := (ih c s h).1
              have hcs := nodeCount_le_of_mem cs c hmem
              have : nodeCount s < nodeCount (.apply n cs) := by
                simp only [nodeCount]; omega
              exact ⟨le_of_lt this, fun _ => this⟩
      | prim name => exact absurd h (by simp [subtreeAtPath])
      | var idx => exact absurd h (by simp [subtreeAtPath])
      | const v => exact absurd h (by simp [subtreeAtPath])

theorem replaceAllEq_of_astPyEq (target newSub a : AST) (h : astPyEq a target = true) :
    replaceAllEq target newSub a = a → a = newSub := by
  intro hr
  cases a <;> simp [replaceAllEq, h] at hr <;> exact hr.symm

theorem replaceAllEq_hit_root (target newSub a : AST) (h : astPyEq a target = true) :
    replaceAllEq target newSub a = newSub := by
  cases a <;> simp [replaceAllEq, h]

/-- Every position whose subtree is `==`-equal to the target holds the
replacement after `replace_in_ast`. -/
theorem subtreeAtPath_replaceAllEq_hit : ∀ (q : List Nat) (a s target newSub : AST),
    subtreeAtPath a q = some s → astPyEq s target = true →
    subtreeAtPath (replaceAllEq target newSub a) q = some newSub := by
  intro q
  induction q with
  | nil =>
      intro a s target newSub h he
      simp only [subtreeAtPath, Option.some.injEq] at h
      subst h
      rw [replaceAllEq_hit_root target newSub a he]
      simp [subtreeAtPath]
  | cons i p ih =>
      intro a s target newSub h he
      cases a with
      | apply n cs =>
          simp only [subtreeAtPath] at h
          cases hg : cs[i]? with
          | none => rw [hg] at h; exact absurd h (by simp)
          | some c =>
              have h' : subtreeAtPath c p = some s := by rw [hg] at h; exact h
              have hfull : subtreeAtPath (.apply n cs) (i :: p) = some s := by
                simp only [subtreeAtPath, hg]
                exact h'
              have hroot : astPyEq (.apply n cs) target = false := by
                cases hcontra : astPyEq (.apply n cs) target with
                | false => rfl
                | true =>
                    have h1 := astPyEq_nodeCount _ _ hcontra
                    have h2 := astPyEq_nodeCount _ _ he
                    have h3 := (subtreeAtPath_nodeCount (i :: p) (.apply n cs) s hfull).2
                      (by simp)
                    omega
              show subtreeAtPath (replaceAllEq target newSub (.apply n cs)) (i :: p) = some newSub
              rw [show replaceAllEq target newSub (.apply n cs) =
                  .apply n (replaceAllEqList target newSub cs) by
                simp [replaceAllEq, hroot]]
              rw [replaceAllEqList_eq_map]
              simp only [subtreeAtPath, List.getElem?_map, hg, Option.map_some']
              exact ih c s target newSub h' he
      | prim name => exact absurd h (by simp [subtreeAtPath])
      | var idx => exact absurd h (by simp [subtreeAtPath])
      | const v => exact absurd h (by simp [subtreeAtPath])

mutual

theorem replaceAllEq_no_occ (target newSub : AST) : ∀ (a : AST),
    (getAllSubtrees a).all (fun u => !astPyEq u target) = true →
    replaceAllEq target newSub a = a
  | .apply n cs, h => by
      rw [show getAllSubtrees (.apply n cs) =
          .apply n cs :: getAllSubtreesList cs from rfl] at h
      simp only [List.all_cons, Bool.and_eq_true, Bool.not_eq_eq_eq_not, Bool.not_true] at h
      simp [replaceAllEq, h.1, replaceAllEqList_no_occ target newSub cs (by
        rw [List.all_eq_true]
        intro u hu
        have := (List.all_eq_true.1 h.2) u hu
        simpa using this)]
  | .prim s, h => by
      simp only [getAllSubtrees, List.all_cons, List.all_nil, Bool.and_true,
        Bool.not_eq_eq_eq_not, Bool.not_true] at h
      simp [replaceAllEq, h]
  | .var i, h => by
      simp only [getAllSubtrees, List.all_cons, List.all_nil, Bool.and_true,
        Bool.not_eq_eq_eq_not, Bool.not_true] at h
      simp [replaceAllEq, h]
  | .const v, h => by
      simp only [getAllSubtrees, List.all_cons, List.all_nil, Bool.and_true,
        Bool.not_eq_eq_eq_not, Bool.not_true] at h
      simp [replaceAllEq, h]

theorem replaceAllEqList_no_occ (target newSub : AST) : ∀ (cs : List AST),
    (getAllSubtreesList cs).all (fun u => !astPyEq u target) = true →
    replaceAllEqList target newSub cs = cs
  | [], _ => rfl
  | c :: cs, h => by
      rw [show getAllSubtreesList (c :: cs) =
          getAllSubtrees c ++ getAllSubtreesList cs from rfl, List.all_append,
        Bool.and_eq_true] at h
      simp [replaceAllEqList, replaceAllEq_no_occ target newSub c h.1,
        replaceAllEqList_no_occ target newSub cs h.2]

end

/-- A position below no `==`-occurrence of the target, whose own subtree
contains no occurrence either, is untouched by `replace_in_ast`. -/
theorem subtreeAtPath_replaceAllEq_miss : ∀ (q : List Nat) (a s target newSub : AST),
    subtreeAtPath a q = some s →
    (∀ q1 q2 s', q = q1 ++ q2 → subtreeAtPath a q1 = some s' →
      astPyEq s' target = false) →
    (getAllSubtrees s).all (fun u => !astPyEq u target) = true →
    subtreeAtPath (replaceAllEq target newSub a) q = some s := by
  intro q
  induction q with
  | nil =>
      intro a s target newSub h _ hocc
      simp only [subtreeAtPath, Option.some.injEq] at h
      subst h
      rw [replaceAllEq_no_occ target newSub a hocc]
      simp [subtreeAtPath]
  | cons i p ih =>
      intro a s target newSub h hpref hocc
      cases a with
      | apply n cs =>
          simp only [subtreeAtPath] at h
          cases hg : cs[i]? with
          | none => rw [hg] at h; exact absurd h (by simp)
          | some c =>
              have h' : subtreeAtPath c p = some s := by rw [hg] at h; exact h
              have hroot : astPyEq (.apply n cs) target = false :=
                hpref [] (i :: p) (.apply n cs) rfl (by simp [subtreeAtPath])
              rw [show replaceAllEq target newSub (.apply n cs) =
                  .apply n (replaceAllEqList target newSub cs) by
                simp [replaceAllEq, hroot]]
              rw [replaceAllEqList_eq_map]
              show subtreeAtPath _ (i :: p) = some s
              simp only [subtreeAtPath, List.getElem?_map, hg, Option.map_some']
              refine ih c s target newSub h' ?_ hocc
              intro q1 q2 s' hq hsub
              refine hpref (i :: q1) q2 s' (by rw [hq]; rfl) ?_
              simp only [subtreeAtPath, hg]
              exact hsub
      | prim name => exact absurd h (by simp [subtreeAtPath])
      | var idx => exact absurd h (by simp [subtreeAtPath])
      | const v => exact absurd h (by simp [subtreeAtPath])

theorem arityOkListB_iff : ∀ cs : List AST,
    arityOkListB cs = true ↔ ∀ c ∈ cs, arityOkB c = true := by
  intro cs
  induction cs with
  | nil => simp [arityOkListB]
  | cons c cs ih => simp [arityOkListB, ih]

theorem genAst_arityOk : ∀ (d : Nat) (m : GenMethod) (a : AST),
    GenAst d m a → arityOkB a = true := by
  intro d m a h
  induction h with
  | var _ _ _ _ _ => rfl
  | const _ _ _ _ _ => rfl
  | app d m name cs _ hlen _ ih =>
      simp [arityOkB, hlen, (arityOkListB_iff cs).2 ih]

mutual

theorem arityOk_of_mem_subtrees : ∀ (a s : AST), arityOkB a = true →
    s ∈ getAllSubtrees a → arityOkB s = true
  | .apply n cs, s, h, hm => by
      rw [show getAllSubtrees (.apply n cs) =
          .apply n cs :: getAllSubtreesList cs from rfl] at hm
      rcases List.mem_cons.1 hm with rfl | hm'
      · exact h
      · have hcs : arityOkListB cs = true := by
          simp only [arityOkB, Bool.and_eq_true] at h
          exact h.2
        exact arityOk_of_mem_subtreesList cs s hcs hm'
  | .prim name, s, h, hm => by
      simp only [getAllSubtrees, List.mem_singleton] at hm
      subst hm; exact h
  | .var i, s, h, hm => by
      simp only [getAllSubtrees, List.mem_singleton] at hm
      subst hm; exact h
  | .const v, s, h, hm => by
      simp only [getAllSubtrees, List.mem_singleton] at hm
      subst hm; exact h

theorem arityOk_of_mem_subtreesList : ∀ (cs : List AST) (s : AST),
    arityOkListB cs = true → s ∈ getAllSubtreesList cs → arityOkB s = true
  | [], s, _, hm => by simp [getAllSubtreesList] at hm
  | c :: cs, s, h, hm => by
      simp only [arityOkListB, Bool.and_eq_true] at h
      rw [show getAllSubtreesList (c :: cs) =
          getAllSubtrees c ++ getAllSubtreesList cs from rfl] at hm
      rcases List.mem_append.1 hm with hm' | hm'
      · exact arityOk_of_mem_subtrees c s h.1 hm'
      · exact arityOk_of_mem_subtreesList cs s h.2 hm'

end

mutual

theorem replaceAllEq_arityOk (target newSub : AST) (hn : arityOkB newSub = true) :
    ∀ a : AST, arityOkB a = true → arityOkB (replaceAllEq target newSub a) = true
  | .apply n cs, h => by
      cases he : astPyEq (.apply n cs) target with
      | true => simpa [replaceAllEq, he] using hn
      | false =>
          simp only [arityOkB, Bool.and_eq_true] at h
          have hl : (replaceAllEqList target newSub cs).length = cs.length := by
            rw [replaceAllEqList_eq_map]; exact List.length_map cs _
          simp only [replaceAllEq, he, Bool.false_eq_true, if_false, arityOkB,
            Bool.and_eq_true, hl]
          exact ⟨h.1, replaceAllEqList_arityOk target newSub hn cs h.2⟩
  | .prim name, h => by
      cases he : astPyEq (.prim name) target with
      | true => simpa [replaceAllEq, he] using hn
      | false => simpa [replaceAllEq, he] using h
  | .var i, h => by
      cases he : astPyEq (.var i) target with
      | true => simpa [replaceAllEq, he] using hn
      | false => simpa [replaceAllEq, he] using h
  | .const v, h => by
      cases he : astPyEq (.const v) target with
      | true => simpa [replaceAllEq, he] using hn
      | false => simpa [replaceAllEq, he] using h

theorem replaceAllEqList_arityOk (target newSub : AST) (hn : arityOkB newSub = true) :
    ∀ cs : List AST, arityOkListB cs = true →
      arityOkListB (replaceAllEqList target newSub cs) = true
  | [], _ => rfl
  | c :: cs, h => by
      simp only [arityOkListB, Bool.and_eq_true] at h
      simp only [replaceAllEqList, arityOkListB, Bool.and_eq_true]
      exact ⟨replaceAllEq_arityOk target newSub hn c h.1,
        replaceAllEqList_arityOk target newSub hn cs h.2⟩

end

theorem replaceSubtree_arityOk (a newSub : AST) (idx : Nat)
    (ha : arityOkB a = true) (hn : arityOkB newSub = true) :
    arityOkB (replaceSubtree a idx newSub) = true := by
  by_cases h : (getAllSubtrees a).length ≤ idx
  · simpa [replaceSubtree, h] using ha
  · simp only [replaceSubtree, h, if_false]
    exact replaceAllEq_arityOk _ newSub hn a ha

theorem getD_subtrees_arityOk (a : AST) (idx : Nat) (d : AST)
    (ha : arityOkB a = true) (hd : arityOkB d = true) :
    arityOkB ((getAllSubtrees a).getD idx d) = true := by
  cases hlt : decide (idx < (getAllSubtrees a).length) with
  | false =>
      have : (getAllSubtrees a).length ≤ idx := by
        have := of_decide_eq_false hlt
        omega
      rw [List.getD_eq_default _ _ this]
      exact hd
  | true =>
      have hlt' := of_decide_eq_true hlt
      have hmem : (getAllSubtrees a).getD idx d ∈ getAllSubtrees a := by
        rw [List.getD_eq_getElem _ _ hlt']
        exact List.getElem_mem hlt'
      exact arityOk_of_mem_subtrees a _ ha hmem

/-- C2 (counterexample): point mutation can replace the operator of an
arity-correct `Apply` node by an operator of different arity — here
`add` (arity 2) becomes `not` (arity 1) while keeping both children —
breaking the arity invariant. -/
theorem point_mutation_arity_counterexample :
    arityOkB (.apply "add" [.var 0, .var 1]) = true ∧
    PointMut (.apply "add" [.var 0, .var 1]) (.apply "not" [.var 0, .var 1]) ∧
    arityOkB (.apply "not" [.var 0, .var 1]) = false :=
  ⟨rfl, .app "add" "not" [.var 0, .var 1] (by decide), rfl⟩

/-- C2 (amended): every AST produced by random initialization satisfies
the arity invariant, and the invariant is preserved by crossover,
subtree mutation and hoist mutation; point mutation preserves the tree
shape but may install an operator whose registered arity differs from
the children count, so it does not preserve the invariant (see the
counterexample). -/
theorem arity_invariant_amended :
    (∀ (d : Nat) (m : GenMethod) (a : AST), GenAst d m a → arityOkB a = true) ∧
    (∀ a b c1 c2 : AST, arityOkB a = true → arityOkB b = true →
      CrossAst a b c1 c2 → arityOkB c1 = true ∧ arityOkB c2 = true) ∧
    (∀ a b : AST, arityOkB a = true → SubtreeMut a b → arityOkB b = true) ∧
    (∀ a b : AST, arityOkB a = true → HoistMut a b → arityOkB b = true) := by
  refine ⟨genAst_arityOk, ?_, ?_, ?_⟩
  · intro a b c1 c2 ha hb hc
    cases hc with
    | skip => exact ⟨ha, hb⟩
    | swap p1 p2 hp1 hp2 =>
        constructor
        · exact replaceSubtree_arityOk a _ p1 ha (getD_subtrees_arityOk b p2 b hb hb)
        · exact replaceSubtree_arityOk b _ p2 hb (getD_subtrees_arityOk a p1 a ha ha)
  · intro a b ha hs
    cases hs with
    | mk newSub idx hidx hgen =>
        exact replaceSubtree_arityOk a newSub idx ha (genAst_arityOk 2 .grow newSub hgen)
  · intro a b ha hh
    cases hh with
    | mk idx h0 hlen => exact getD_subtrees_arityOk a idx a ha ha
    | skip => exact ha

theorem arity_invariant_amended_witness :
    arityOkB (.apply "cons" [.var 0, .const (.int 2)]) = true :=
  arity_invariant_amended.1 1 .grow _
    (.app 0 .grow "cons" [.var 0, .const (.int 2)] (by decide) (by decide)
      (by
        intro c hc
        rcases List.mem_cons.1 hc with rfl | hc'
        · exact .var 0 .grow 0 (Or.inl rfl) (by norm_num)
        · rcases List.mem_singleton.1 hc' with rfl
          exact .const 0 .grow (.int 2) (Or.inl rfl)
            (show Value.int 2 ∈ constPool from .tail _ (.tail _ (.head _)))))

/-- C5 (counterexample): crossing `add(Var(0), Var(0))` (subtree index 1
chosen: the first `Var(0)`) with parent `Var(1)` (index 0) replaces
*both* occurrences of `Var(0)` in the first child, whereas replacing
exactly the chosen pre-order position — as the claim states — would
change only the first child slot. -/
theorem crossover_duplicate_subtree_counterexample :
    crossoverChildren (.apply "add" [.var 0, .var 0]) (.var 1) 1 0 =
      (.apply "add" [.var 1, .var 1], .var 0) ∧
    replacePos (.apply "add" [.var 0, .var 0]) 1 (.var 1) =
      .apply "add" [.var 1, .var 0] ∧
    AST.apply "add" [.var 1, .var 1] ≠ .apply "add" [.var 1, .var 0] :=
  ⟨rfl, rfl, by simp⟩

/-- C5 (amended): given the chosen subtree indices, each crossover child
is the parent copy with *every* subtree position `==`-equal to the
chosen subtree replaced by the subtree chosen in the other parent
(second conjunct); a position is unchanged exactly when no node on its
root path is `==`-equal to the chosen subtree and its own subtree
contains no `==`-occurrence of it (third conjunct).  With duplicated
subtrees several positions change at once. -/
theorem crossover_replaces_all_equal_occurrences :
    (∀ (a newSub : AST) (idx : Nat), idx < (getAllSubtrees a).length →
      replaceSubtree a idx newSub =
        replaceAllEq ((getAllSubtrees a).getD idx a) newSub a) ∧
    (∀ (target newSub a s : AST) (q : List Nat),
      subtreeAtPath a q = some s → astPyEq s target = true →
      subtreeAtPath (replaceAllEq target newSub a) q = some newSub) ∧
    (∀ (target newSub a s : AST) (q : List Nat),
      subtreeAtPath a q = some s →
      (∀ q1 q2 s', q = q1 ++ q2 → subtreeAtPath a q1 = some s' →
        astPyEq s' target = false) →
      (getAllSubtrees s).all (fun u => !astPyEq u target) = true →
      subtreeAtPath (replaceAllEq target newSub a) q = some s) := by
  refine ⟨?_, ?_, ?_⟩
  · intro a newSub idx hidx
    unfold replaceSubtree
    rw [if_neg (by omega)]
  · intro target newSub a s q h he
    exact subtreeAtPath_replaceAllEq_hit q a s target newSub h he
  · intro target newSub a s q h hpref hocc
    exact subtreeAtPath_replaceAllEq_miss q a s target newSub h hpref hocc

theorem crossover_replaces_all_equal_occurrences_witness :
    subtreeAtPath (replaceAllEq (.var 0) (.var 1) (.apply "add" [.var 0, .var 0]))
      [1] = some (.var 1) :=
  crossover_replaces_all_equal_occurrences.2.1 (.var 0) (.var 1)
    (.apply "add" [.var 0, .var 0]) (.var 0) [1] rfl rfl

/-- C6: across any sequence of `evolve_generation` calls, `best_ever` is
replaced only by a strictly fitter individual (first conjunct: one step
either keeps `best_ever` or replaces it with strictly higher fitness),
and consequently `best_ever.fitness` is monotonically non-decreasing
over any reachable sequence of generations (second conjunct). -/
theorem best_ever_monotone :
    (∀ (f : AST → Option ℚ) (st st' : GAState) (b : GOp),
      EvolveStep f st st' → st.bestEver = some b →
      st'.bestEver = some b ∨
      ∃ b', st'.bestEver = some b' ∧ b.fitness < b'.fitness) ∧
    (∀ (st st' : GAState) (b : GOp), EvoReach st st' → st.bestEver = some b →
      ∃ b', st'.bestEver = some b' ∧ b.fitness ≤ b'.fitness) := by
  have hstep : ∀ (f : AST → Option ℚ) (st st' : GAState) (b : GOp),
      EvolveStep f st st' → st.bestEver = some b →
      st'.bestEver = some b ∨
      ∃ b', st'.bestEver = some b' ∧ b.fitness < b'.fitness := by
    intro f st st' b hs hb
    obtain ⟨st₁, best, newpop, heval, _, _, rfl⟩ := hs
    show st₁.bestEver = some b ∨ ∃ b', st₁.bestEver = some b' ∧ b.fitness < b'.fitness
    cases hpop : st.population with
    | nil => rw [evaluateFitness, hpop] at heval; exact absurd heval (by simp)
    | cons p0 rest =>
        rw [evaluateFitness, hpop] at heval
        simp only [Option.some.injEq] at heval
        subst heval
        rw [hb]
        by_cases hlt : b.fitness <
            (maxByFit { p0 with fitness := ((f p0.ast).getD 0 : ℚ) }
              (rest.map fun op => { op with fitness := (f op.ast).getD 0 })).fitness
        · right
          exact ⟨_, by simp [hlt], hlt⟩
        · left
          simp [hlt]
  refine ⟨hstep, ?_⟩
  intro st st' b hr
  induction hr generalizing b with
  | refl st => exact fun hb => ⟨b, hb, le_refl _⟩
  | step st st₁ st₂ f h1 _ ih =>
      intro hb
      rcases hstep f st st₁ b h1 hb with h | ⟨b', hb', hlt⟩
      · exact ih b h
      · obtain ⟨b'', hb'', hle⟩ := ih b' hb'
        exact ⟨b'', hb'', le_of_lt (lt_of_lt_of_le hlt hle)⟩

theorem best_ever_monotone_witness :
    ∃ b', gaW2.bestEver = some b' ∧ gaBW.fitness ≤ b'.fitness :=
  best_ever_monotone.2 gaW0 gaW2 gaBW
    (EvoReach.step gaW0 gaW2 gaW2 (fun _ => some 0)
      ⟨gaW1, gaP0, [gaP0], by
          show evaluateFitness (fun _ => some 0) gaW0 = some gaW1
          norm_num [evaluateFitness, gaW0, gaW1, gaP0, gaBW, maxByFit],
        rfl, FillFrom.stop [gaP0] (by norm_num [gaW1]), rfl⟩
      (EvoReach.refl gaW2))
    rfl

theorem dictGet?_dictSet_self {α : Type} (d : List (String × α)) (k : String) (v : α) :
    dictGet? (dictSet d k v) k = some v := by
  induction d with
  | nil => simp [dictGet?, dictSet]
  | cons p ps ih =>
      by_cases hp : p.1 = k
      · simp [dictGet?, dictSet, hp]
      · simp [dictGet?, dictSet, hp, ih]

theorem dictGet?_dictSet_ne {α : Type} (d : List (String × α)) (k k' : String) (v : α)
    (h : k' ≠ k) : dictGet? (dictSet d k v) k' = dictGet? d k' := by
  have hkk' : ¬ k = k' := fun hc => h hc.symm
  induction d with
  | nil => simp [dictGet?, dictSet, hkk']
  | cons p ps ih =>
      by_cases hp : p.1 = k
      · have hpk' : ¬ p.1 = k' := by rw [hp]; exact hkk'
        simp [dictGet?, dictSet, hp, hkk', hpk']
      · by_cases hp' : p.1 = k'
        · simp [dictGet?, dictSet, hp, hp', h]
        · simp [dictGet?, dictSet, hp, hp', ih]

theorem dictGet?_dictAppend_self {α : Type} (d : List (String × List α)) (k : String)
    (r : α) : dictGet? (dictAppend d k r) k = some ((dictGet? d k).getD [] ++ [r]) := by
  induction d with
  | nil => simp [dictGet?, dictAppend]
  | cons p ps ih =>
      by_cases hp : p.1 = k
      · simp [dictGet?, dictAppend, hp]
      · simp [dictGet?, dictAppend, hp, ih]

theorem dictGet?_dictAppend_ne {α : Type} (d : List (String × List α)) (k k' : String)
    (r : α) (h : k' ≠ k) : dictGet? (dictAppend d k r) k' = dictGet? d k' := by
  have hkk' : ¬ k = k' := fun hc => h hc.symm
  induction d with
  | nil => simp [dictGet?, dictAppend, hkk']
  | cons p ps ih =>
      by_cases hp : p.1 = k
      · have hpk' : ¬ p.1 = k' := by rw [hp]; exact hkk'
        simp [dictGet?, dictAppend, hp, hpk', hkk']
      · by_cases hp' : p.1 = k'
        · simp [dictGet?, dictAppend, hp, hp', h]
        · simp [dictGet?, dictAppend, hp, hp', ih]

/-- C8: whenever the chosen, registered strategy fails — by returning
`None` or by raising — `attempt_synthesis` returns `None` without
propagating an exception, the strategy's `failure_count` is incremented,
the elapsed time is still added to its `total_time`, and both the
signature→strategy mapping and the success-pattern records are left
unchanged (only the history log gets a failure entry). -/
theorem attempt_synthesis_failure (st : MLState) (chars : ProblemChars)
    (elapsed : ℚ) (randPick : Nat) (name : String) (strat : Strategy)
    (outcome : SynthOutcome)
    (hsel : selectStrategy st (sigOf chars) randPick = some name)
    (hstrat : dictGet? st.strategies name = some strat)
    (hfail : outcome = .raises ∨ outcome = .returns Option.none) :
    ∃ st', attemptSynthesis st chars outcome elapsed randPick = some (Option.none, st') ∧
      dictGet? st'.strategies name =
        some { strat with failureCount := strat.failureCount + 1,
                          totalTime := strat.totalTime + elapsed } ∧
      st'.strategyMapping = st.strategyMapping ∧
      st'.successPatterns = st.successPatterns ∧
      st'.problemHistory = st.problemHistory ++ [⟨chars, name, false, elapsed⟩] := by
  rcases hfail with rfl | rfl <;>
    exact ⟨{ st with
        strategies := dictSet st.strategies name
          { strat with failureCount := strat.failureCount + 1,
                       totalTime := strat.totalTime + elapsed },
        problemHistory := st.problemHistory ++ [⟨chars, name, false, elapsed⟩] },
      by simp only [attemptSynthesis, hsel, hstrat],
      dictGet?_dictSet_self _ _ _, rfl, rfl, rfl⟩

theorem attempt_synthesis_failure_witness :
    ∃ st', attemptSynthesis mlW0 charsW .raises 1 0 = some (Option.none, st') ∧
      dictGet? st'.strategies "enumerative" =
        some { name := "enumerative", successCount := 0, failureCount := 0 + 1,
               totalTime := 0 + 1, avgProgramSize := 0 } ∧
      st'.strategyMapping = mlW0.strategyMapping ∧
      st'.successPatterns = mlW0.successPatterns ∧
      st'.problemHistory = mlW0.problemHistory ++ [⟨charsW, "enumerative", false, 1⟩] :=
  attempt_synthesis_failure mlW0 charsW 1 0 "enumerative" ⟨"enumerative", 0, 0, 0, 0⟩
    .raises rfl rfl (Or.inl rfl)

theorem groupTimes_const_aux (s : String) : ∀ (rs : List SuccessRec) (acc : List ℚ),
    (∀ e ∈ rs, e.strategy = s) →
    rs.foldl (fun acc' r => dictAppend acc' r.strategy r.time) [(s, acc)] =
      [(s, acc ++ rs.map (·.time))] := by
  intro rs
  induction rs with
  | nil => intro acc _; simp
  | cons r rs ih =>
      intro acc hall
      have hr : r.strategy = s := hall r (List.mem_cons_self r rs)
      simp only [List.foldl_cons]
      rw [show dictAppend [(s, acc)] r.strategy r.time = [(s, acc ++ [r.time])] by
        simp [dictAppend, hr]]
      rw [ih (acc ++ [r.time]) (fun e he => hall e (List.mem_cons_of_mem _ he))]
      simp

/-- When every recorded success on a signature belongs to the same
strategy, the `strategy_times` table is a single-key dict. -/
theorem groupTimes_const (s : String) (r : SuccessRec) (rs : List SuccessRec)
    (hall : ∀ e ∈ r :: rs, e.strategy = s) :
    groupTimes (r :: rs) = [(s, (r :: rs).map (·.time))] := by
  unfold groupTimes
  simp only [List.foldl_cons]
  rw [show dictAppend [] r.strategy r.time = [(s, [r.time])] by
    simp [dictAppend, hall r (List.mem_cons_self r rs)]]
  rw [groupTimes_const_aux s rs [r.time] (fun e he => hall e (List.mem_cons_of_mem _ he))]
  simp

theorem dedup_const (s : String) : ∀ (l : List String), (∀ x ∈ l, x = s) → l ≠ [] →
    l.dedup = [s] := by
  intro l
  induction l with
  | nil => intro _ h; exact absurd rfl h
  | cons x xs ih =>
      intro hall _
      have hx : x = s := hall x (List.mem_cons_self x xs)
      subst hx
      by_cases hnil : xs = []
      · subst hnil; simp
      · have hxs := ih (fun y hy => hall y (List.mem_cons_of_mem _ hy)) hnil
        rw [List.dedup_cons_of_mem ?_]
        · exact hxs
        · cases xs with
          | nil => exact absurd rfl hnil
          | cons y ys => simp [hall y (by simp)]

/-- The claim's argmin formula collapses to the unique strategy when all
recorded successes share one strategy. -/
theorem claimBest_const (entries : List SuccessRec) (s : String)
    (hne : entries ≠ []) (hall : ∀ e ∈ entries, e.strategy = s) :
    claimBest entries = some s := by
  unfold claimBest
  have hd : (entries.map (·.strategy)).dedup = [s] := by
    refine dedup_const s _ ?_ (by simpa using hne)
    intro x hx
    obtain ⟨e, he, rfl⟩ := List.mem_map.1 hx
    exact hall e he
  rw [hd]
  simp

theorem attempt_inversion (st : MLState) (chars : ProblemChars)
    (outcome : SynthOutcome) (elapsed : ℚ) (randPick : Nat)
    (res : Option SynthResult) (st' : MLState)
    (heq : attemptSynthesis st chars outcome elapsed randPick = some (res, st')) :
    ∃ name strat, selectStrategy st (sigOf chars) randPick = some name ∧
      dictGet? st.strategies name = some strat := by
  cases hsel : selectStrategy st (sigOf chars) randPick with
  | none => simp [attemptSynthesis, hsel] at heq
  | some name =>
      cases hstrat : dictGet? st.strategies name with
      | none => simp [attemptSynthesis, hsel, hstrat] at heq
      | some strat => exact ⟨name, strat, rfl, hstrat⟩

theorem updateStrategyMapping_success (st₂ : MLState) (sig : String)
    (entries : List SuccessRec) (name : String)
    (hp : dictGet? st₂.successPatterns sig = some entries)
    (hne : entries ≠ []) (hall : ∀ e ∈ entries, e.strategy = name) :
    (updateStrategyMapping st₂ sig).successPatterns = st₂.successPatterns ∧
    (updateStrategyMapping st₂ sig).strategyMapping =
      dictSet st₂.strategyMapping sig name ∧
    (updateStrategyMapping st₂ sig).strategies = st₂.strategies ∧
    (updateStrategyMapping st₂ sig).problemHistory = st₂.problemHistory := by
  unfold updateStrategyMapping
  rw [hp]
  cases entries with
  | nil => exact absurd rfl hne
  | cons r rs =>
      simp only [Option.getD_some, Option.isSome_some, if_true,
        groupTimes_const name r rs hall, minByMean]
      exact ⟨trivial, trivial, trivial, trivial⟩

theorem attempt_success_eq (st : MLState) (chars : ProblemChars) (res : SynthResult)
    (elapsed : ℚ) (randPick : Nat) (name : String) (strat : Strategy)
    (hsel : selectStrategy st (sigOf chars) randPick = some name)
    (hstrat : dictGet? st.strategies name = some strat) :
    attemptSynthesis st chars (.returns (some res)) elapsed randPick =
      some (some res, successState st chars res elapsed name strat) := by
  simp only [attemptSynthesis, hsel, hstrat]
  rfl

theorem attempt_success_analysis (st : MLState) (chars : ProblemChars)
    (res : SynthResult) (elapsed : ℚ) (randPick : Nat) (name : String)
    (strat : Strategy) (st' : MLState)
    (hsel : selectStrategy st (sigOf chars) randPick = some name)
    (hstrat : dictGet? st.strategies name = some strat)
    (hinv : MLInv st)
    (heq : attemptSynthesis st chars (.returns (some res)) elapsed randPick =
      some (some res, st')) :
    ∃ entries, dictGet? st'.successPatterns (sigOf chars) = some entries ∧
      entries ≠ [] ∧ (∀ e ∈ entries, e.strategy = name) ∧
      dictGet? st'.strategyMapping (sigOf chars) = some name ∧
      ∀ sig', sig' ≠ sigOf chars →
        dictGet? st'.successPatterns sig' = dictGet? st.successPatterns sig' ∧
        dictGet? st'.strategyMapping sig' = dictGet? st.strategyMapping sig' := by
  have hst' : st' = successState st chars res elapsed name strat := by
    have h2 := attempt_success_eq st chars res elapsed randPick name strat hsel hstrat
    rw [heq] at h2
    simpa using h2
  subst hst'
  -- the entries recorded for this signature before the call all carry `name`
  have hbase : ∀ e ∈ (dictGet? st.successPatterns (sigOf chars)).getD [],
      e.strategy = name := by
    cases hmap : dictGet? st.strategyMapping (sigOf chars) with
    | some m =>
        have hnm : m = name := by
          unfold selectStrategy at hsel
          rw [hmap] at hsel
          simpa using hsel
        subst hnm
        obtain ⟨entries₀, hp₀, _, hall₀⟩ := (hinv (sigOf chars)).2 m hmap
        rw [hp₀]
        exact hall₀
    | none =>
        have hp₀ : dictGet? st.successPatterns (sigOf chars) = Option.none := by
          cases hq : dictGet? st.successPatterns (sigOf chars) with
          | none => rfl
          | some entries₀ =>
              obtain ⟨_, s, _, hm2⟩ := (hinv (sigOf chars)).1 entries₀ hq
              rw [hmap] at hm2
              exact absurd hm2 (by simp)
        rw [hp₀]
        intro e he
        exact absurd he (List.not_mem_nil e)
  -- the patterns table right after the append
  have hp₂ : dictGet? (preState st chars res elapsed name strat).successPatterns
      (sigOf chars) =
      some ((dictGet? st.successPatterns (sigOf chars)).getD [] ++
        [⟨name, elapsed, res.cost.getD 0⟩]) :=
    dictGet?_dictAppend_self st.successPatterns (sigOf chars) _
  have hne' : (dictGet? st.successPatterns (sigOf chars)).getD [] ++
      [(⟨name, elapsed, res.cost.getD 0⟩ : SuccessRec)] ≠ [] := by simp
  have hall' : ∀ e ∈ (dictGet? st.successPatterns (sigOf chars)).getD [] ++
      [(⟨name, elapsed, res.cost.getD 0⟩ : SuccessRec)], e.strategy = name := by
    intro e he
    rcases List.mem_append.1 he with he' | he'
    · exact hbase e he'
    · rcases List.mem_singleton.1 he' with rfl
      rfl
  obtain ⟨hPat, hMap, -, -⟩ :=
    updateStrategyMapping_success (preState st chars res elapsed name strat)
      (sigOf chars) _ name hp₂ hne' hall'
  refine ⟨_, ?_, hne', hall', ?_, ?_⟩
  · show dictGet? (updateStrategyMapping (preState st chars res elapsed name strat)
      (sigOf chars)).successPatterns (sigOf chars) = _
    rw [hPat]
    exact hp₂
  · show dictGet? (updateStrategyMapping (preState st chars res elapsed name strat)
      (sigOf chars)).strategyMapping (sigOf chars) = some name
    rw [hMap]
    exact dictGet?_dictSet_self _ _ _
  · intro sig' hs'
    constructor
    · show dictGet? (updateStrategyMapping (preState st chars res elapsed name strat)
        (sigOf chars)).successPatterns sig' = _
      rw [hPat]
      exact dictGet?_dictAppend_ne st.successPatterns (sigOf chars) sig' _ hs'
    · show dictGet? (updateStrategyMapping (preState st chars res elapsed name strat)
        (sigOf chars)).strategyMapping sig' = _
      rw [hMap]
      exact dictGet?_dictSet_ne st.strategyMapping (sigOf chars) sig' name hs'

theorem mlReach_inv : ∀ st : MLState, MLReach st → MLInv st := by
  intro st h
  induction h with
  | init =>
      intro sig
      constructor
      · intro entries hentries
        exact absurd hentries (by simp [dictGet?])
      · intro s hs
        exact absurd hs (by simp [dictGet?])
  | register st name _ ih =>
      intro sig
      exact ih sig
  | attempt st chars outcome elapsed randPick res st' _ heq ih =>
      obtain ⟨name, strat, hsel, hstrat⟩ :=
        attempt_inversion st chars outcome elapsed randPick res st' heq
      cases outcome with
      | raises =>
          simp only [attemptSynthesis, hsel, hstrat, Option.some.injEq,
            Prod.mk.injEq] at heq
          obtain ⟨-, hst'⟩ := heq
          subst hst'
          intro sig
          exact ih sig
      | returns r =>
          cases r with
          | none =>
              simp only [attemptSynthesis, hsel, hstrat, Option.some.injEq,
                Prod.mk.injEq] at heq
              obtain ⟨-, hst'⟩ := heq
              subst hst'
              intro sig
              exact ih sig
          | some res' =>
              have h2 := attempt_success_eq st chars res' elapsed randPick name strat
                hsel hstrat
              rw [heq] at h2
              obtain ⟨hres, -⟩ : res = some res' ∧
                  st' = successState st chars res' elapsed name strat := by
                simpa using h2
              subst hres
              obtain ⟨entries, hp, hne, hall, hm, hother⟩ :=
                attempt_success_analysis st chars res' elapsed randPick name strat st'
                  hsel hstrat ih heq
              intro sig
              by_cases hsig : sig = sigOf chars
              · subst hsig
                constructor
                · intro entries' hentries'
                  rw [hp] at hentries'
                  obtain rfl : entries = entries' := by simpa using hentries'
                  exact ⟨hne, name, hall, hm⟩
                · intro s hs
                  rw [hm] at hs
                  obtain rfl : name = s := by simpa using hs
                  exact ⟨entries, hp, hne, hall⟩
              · obtain ⟨hpats, hmaps⟩ := hother sig hsig
                rw [hpats, hmaps]
                exact ih sig

/-- C7: after every successful `attempt_synthesis`, the mapping for the
problem's signature equals the claim's formula `claimBest` — the
strategy of lowest mean recorded time among the strategies that have
ever succeeded on that signature, ties broken by the alphabetically
first name — evaluated on the signature's success records.  (On states
reachable through the public API only one strategy ever succeeds per
signature, so the formula is met and its tie-break clause never has two
candidates to separate.) -/
theorem strategy_mapping_lowest_mean (st st' : MLState) (chars : ProblemChars)
    (res : SynthResult) (elapsed : ℚ) (randPick : Nat)
    (hreach : MLReach st)
    (heq : attemptSynthesis st chars (.returns (some res)) elapsed randPick =
      some (some res, st')) :
    ∃ entries, dictGet? st'.successPatterns (sigOf chars) = some entries ∧
      dictGet? st'.strategyMapping (sigOf chars) = claimBest entries := by
  have hinv := mlReach_inv st hreach
  obtain ⟨name, strat, hsel, hstrat⟩ :=
    attempt_inversion st chars (.returns (some res)) elapsed randPick (some res) st' heq
  obtain ⟨entries, hp, hne, hall, hm, _⟩ :=
    attempt_success_analysis st chars res elapsed randPick name strat st'
      hsel hstrat hinv heq
  exact ⟨entries, hp, by rw [hm, claimBest_const entries name hne hall]⟩

theorem strategy_mapping_lowest_mean_witness :
    ∃ entries, dictGet? mlW1.successPatterns (sigOf charsW) = some entries ∧
      dictGet? mlW1.strategyMapping (sigOf charsW) = claimBest entries :=
  strategy_mapping_lowest_mean mlW0 mlW1 charsW ⟨Option.none⟩ 1 0
    (MLReach.register ⟨[], [], [], []⟩ "enumerative" MLReach.init) rfl

end VX
